import Mathlib

/-!
# Shortest paths in directed acyclic graphs (seehuhn.de/go/dag)

A shallow embedding of `dag.go`, `dynamic.go` and `hist.go`, followed by
theorems about the three engines `ShortestPath`, `ShortestPathDyn` and
`ShortestPathHist`.

Conventions of the embedding.
* A Go `int` is an `Int` (no overflow), an edge length is an `Int`.
* A Go slice is a `List`; the nil slice and the empty slice are both `[]`.
* The zero value of the edge type is `default`.
* A result `(path, err)` is a pair; `err = none` is the nil error.
* A loop that Go does not bound runs on fuel; the outer `Option` is `none`
  when the fuel runs out or an index leaves its slice.
-/

namespace Dag

/-! ## dag.go -/

/-- The only error value of the package, `ErrNoPath`. -/
inductive Err where
  | ErrNoPath
  deriving DecidableEq

/-- The pair `([]edge, error)` the engines return. -/
abbrev Result (E : Type) := List E × Option Err

/-- The interface `Graph[edge, length]` of dag.go. -/
structure Graph (E : Type) where
  /-- Appends the outgoing edges of vertex `v` to the slice `ee`. -/
  AppendEdges : List E → Int → List E
  /-- Length of edge `e` starting at vertex `v`. -/
  Length : Int → E → Int
  /-- Endpoint of edge `e` starting at vertex `v`. -/
  To : Int → E → Int

/-- The local type `vertexInfo` of `ShortestPath`; the field `from` is
written `frm`. -/
structure VertexInfo (E : Type) where
  shortest : Int
  frm : Int
  via : E
  reached : Bool
  deriving DecidableEq

instance {E : Type} [Inhabited E] : Inhabited (VertexInfo E) :=
  ⟨{ shortest := 0, frm := 0, via := default, reached := false }⟩

/-- Reads `info[i]` for an index the surrounding code keeps inside the table. -/
def infoAt {E : Type} [Inhabited E] (info : List (VertexInfo E)) (i : Nat) : VertexInfo E :=
  info.getD i default

/-- The table after `info := make([]vertexInfo, n+1); info[0].reached = true`. -/
def initInfo (E : Type) [Inhabited E] (n : Nat) : List (VertexInfo E) :=
  (List.replicate (n + 1) (default : VertexInfo E)).set 0
    { (default : VertexInfo E) with reached := true }

/-- One pass of the body of `for _, e := range ee` in `ShortestPath`
(dag.go lines 69-79), for the source vertex `v`. -/
def relaxEdge {E : Type} [Inhabited E] (g : Graph E) (n v : Nat)
    (info : List (VertexInfo E)) (e : E) : List (VertexInfo E) :=
  let w := g.To v e
  if w ≤ v ∨ w > n then info
  else
    let newLength := (infoAt info v).shortest + g.Length v e
    if !(infoAt info w.toNat).reached || newLength < (infoAt info w.toNat).shortest then
      info.set w.toNat { shortest := newLength, frm := v, via := e, reached := true }
    else info

/-- One pass of the body of `for v := 0; v < n; v++` (dag.go lines 64-80). -/
def visit {E : Type} [Inhabited E] (g : Graph E) (n : Nat)
    (info : List (VertexInfo E)) (v : Nat) : List (VertexInfo E) :=
  if !(infoAt info v).reached then info
  else (g.AppendEdges [] v).foldl (relaxEdge g n v) info

/-- The table after the sweep `for v := 0; v < n; v++` (dag.go lines 60-81). -/
def sweep {E : Type} [Inhabited E] (g : Graph E) (n : Nat) : List (VertexInfo E) :=
  (List.range n).foldl (visit g n) (initInfo E n)

/-- Reads `info[v]` for a Go index `v`; `none` when the index is out of range. -/
def lookup {E : Type} (info : List (VertexInfo E)) (v : Int) : Option (VertexInfo E) :=
  if 0 ≤ v then info.get? v.toNat else none

/-- The loop `for v := n; v != 0; v = info[v].from { steps++ }`
(dag.go lines 87-90), started at `v` with the counter at `steps`. -/
def countSteps {E : Type} (info : List (VertexInfo E)) : Nat → Int → Nat → Option Nat
  | 0, v, steps => if v = 0 then some steps else none
  | fuel + 1, v, steps =>
    if v = 0 then some steps
    else
      match lookup info v with
      | none => none
      | some r => countSteps info fuel r.frm (steps + 1)

/-- The loop `for v := n; v != 0; v = info[v].from { steps--; path[steps] = info[v].via }`
(dag.go lines 92-95). -/
def fillPath {E : Type} (info : List (VertexInfo E)) : Nat → Int → Nat → List E → Option (List E)
  | 0, v, _, path => if v = 0 then some path else none
  | fuel + 1, v, steps, path =>
    if v = 0 then some path
    else
      match lookup info v with
      | none => none
      | some r =>
        if steps = 0 ∨ path.length < steps then none
        else fillPath info fuel r.frm (steps - 1) (path.set (steps - 1) r.via)

/-- The function `ShortestPath` of dag.go. The two backpointer walks run on
fuel `n`, one unit per step. -/
def ShortestPath {E : Type} [Inhabited E] (g : Graph E) (n : Int) : Option (Result E) :=
  if n = 0 then some ([], none)
  else if n < 0 then some ([], some Err.ErrNoPath)
  else
    let info := sweep g n.toNat
    if !(infoAt info n.toNat).reached then some ([], some Err.ErrNoPath)
    else
      match countSteps info n.toNat n 0 with
      | none => none
      | some steps =>
        match fillPath info n.toNat n steps (List.replicate steps default) with
        | none => none
        | some path => some (path, none)

/-! ## dynamic.go -/

/-- The interface `Beforer[T]` of dynamic.go: `Before a b` is `a.Before(b)`. -/
class Beforer (T : Type) where
  /-- The method `Before`. -/
  Before : T → T → Bool

export Beforer (Before)

/-- The interface `DynamicGraph[vertex, edge, length]` of dynamic.go. -/
structure DynamicGraph (V E : Type) where
  /-- Appends the outgoing edges of vertex `v` to the slice `ee`. -/
  AppendEdges : List E → V → List E
  /-- Length of edge `e` starting at vertex `v`. -/
  Length : V → E → Int
  /-- Endpoint of edge `e` starting at vertex `v`. -/
  To : V → E → V

/-- A pointer `*vertexInfo` of `ShortestPathDyn`: nil, or the record it points to.
A record is only ever pointed to once it has left the open set, after which it is
no longer written, so the pointer is modelled by the record's content. -/
inductive InfoPtr (V E : Type) where
  | nil : InfoPtr V E
  | ref (v : V) (shortest : Int) (frm : InfoPtr V E) (via : E) : InfoPtr V E

/-- The local type `vertexInfo` of `ShortestPathDyn`; the field `from` is
written `frm`. -/
structure DynInfo (V E : Type) where
  v : V
  shortest : Int
  frm : InfoPtr V E
  via : E

/-- The pointer to a record. -/
def DynInfo.ptr {V E : Type} (r : DynInfo V E) : InfoPtr V E :=
  InfoPtr.ref r.v r.shortest r.frm r.via

/-- The variables the main loop of `ShortestPathDyn` updates: the open set `info`,
`arrived` and `bestLength`. -/
structure DynState (V E : Type) where
  info : List (DynInfo V E)
  arrived : Bool
  bestLength : Int

/-- The loop of `sort.Search` of the Go standard library, on the interval `[i, j)`:
`h := int(uint(i+j) >> 1); if !f(h) { i = h + 1 } else { j = h }`. Each pass
shrinks the interval, so fuel `j - i` is enough. -/
def searchLoop (f : Nat → Bool) : Nat → Nat → Nat → Nat
  | 0, i, _ => i
  | fuel + 1, i, j =>
    if i < j then
      let h := (i + j) / 2
      if !f h then searchLoop f fuel (h + 1) j else searchLoop f fuel i h
    else i

/-- The function `sort.Search(n, f)` of the Go standard library. -/
def sortSearch (n : Nat) (f : Nat → Bool) : Nat := searchLoop f n 0 n

/-- The record `&vertexInfo{v: w, shortest: newLength, from: current, via: e}`. -/
def freshInfo {V E : Type} (w : V) (newLength : Int) (current : DynInfo V E) (e : E) :
    DynInfo V E :=
  { v := w, shortest := newLength, frm := current.ptr, via := e }

/-- The update of the open set once `idx` is known (dynamic.go lines 74-87): insert
a new record at `idx`, or relax the record found there. -/
def placeDyn {V E : Type} [Beforer V] (info : List (DynInfo V E)) (idx : Nat) (w : V)
    (newLength : Int) (current : DynInfo V E) (e : E) : List (DynInfo V E) :=
  match info.get? idx with
  | none => info.take idx ++ freshInfo w newLength current e :: info.drop idx
  | some r =>
    if Before w r.v then info.take idx ++ freshInfo w newLength current e :: info.drop idx
    else if newLength < r.shortest then
      info.set idx { r with shortest := newLength, frm := current.ptr, via := e }
    else info

/-- The closure `func(i int) bool { return !info[i].v.Before(w) }` handed to
`sort.Search` (dynamic.go lines 71-73); `sort.Search` calls it inside the slice only. -/
def searchPred {V E : Type} [Beforer V] (info : List (DynInfo V E)) (w : V) (i : Nat) : Bool :=
  match info.get? i with
  | some r => !Before r.v w
  | none => true

/-- One pass of the body of `for _, e := range ee` in `ShortestPathDyn`
(dynamic.go lines 56-87), for the popped record `current`. -/
def relaxDyn {V E : Type} [Beforer V] (g : DynamicGraph V E) (endv : V)
    (current : DynInfo V E) (s : DynState V E) (e : E) : DynState V E :=
  let v := current.v
  let w := g.To v e
  if Before w v then s
  else
    let newLength := current.shortest + g.Length v e
    let s1 : DynState V E :=
      if !Before w endv then
        { s with
          bestLength := if !s.arrived || newLength < s.bestLength then newLength
            else s.bestLength
          arrived := true }
      else s
    let n := s1.info.length
    let idx := sortSearch n (searchPred s1.info w)
    { s1 with info := placeDyn s1.info idx w newLength current e }

/-- The main loop of `ShortestPathDyn` (dynamic.go lines 44-89), one unit of fuel
per pass. With `prune = true` this is the loop of the source; `prune = false` leaves
out the pruning step `if arrived && current.shortest >= bestLength { continue }`
(lines 49-51). -/
def dynLoop {V E : Type} [Beforer V] (prune : Bool) (g : DynamicGraph V E) (endv : V) :
    Nat → DynState V E → Option (DynState V E)
  | 0, s =>
    match s.info with
    | [] => some s
    | current :: _ => if Before current.v endv then none else some s
  | fuel + 1, s =>
    match s.info with
    | [] => some s
    | current :: rest =>
      if Before current.v endv then
        if prune && s.arrived && decide (current.shortest ≥ s.bestLength) then
          dynLoop prune g endv fuel { s with info := rest }
        else
          dynLoop prune g endv fuel
            ((g.AppendEdges [] current.v).foldl (relaxDyn g endv current) { s with info := rest })
      else some s

/-- The loop `for idx := 1; idx < len(info); idx++` (dynamic.go lines 97-102) over
the records from index `idx` on; the result is `bestIdx`. -/
def scanBest {V E : Type} : List (DynInfo V E) → Nat → Nat → Int → Nat
  | [], _, bestIdx, _ => bestIdx
  | r :: rest, idx, bestIdx, bestLength =>
    if r.shortest < bestLength then scanBest rest (idx + 1) idx r.shortest
    else scanBest rest (idx + 1) bestIdx bestLength

/-- The loop `for i := info[bestIdx]; i.from != nil; i = i.from { steps++ }`
(dynamic.go lines 104-107), started at the record `i` points to. -/
def countStepsDyn {V E : Type} : InfoPtr V E → Nat → Nat
  | InfoPtr.nil, steps => steps
  | InfoPtr.ref _ _ InfoPtr.nil _, steps => steps
  | InfoPtr.ref _ _ (InfoPtr.ref v s f e) _, steps =>
    countStepsDyn (InfoPtr.ref v s f e) (steps + 1)

/-- The loop `for i := info[bestIdx]; i.from != nil; i = i.from { steps--; path[steps] = i.via }`
(dynamic.go lines 109-112). -/
def fillPathDyn {V E : Type} : InfoPtr V E → Nat → List E → Option (List E)
  | InfoPtr.nil, _, path => some path
  | InfoPtr.ref _ _ InfoPtr.nil _, _, path => some path
  | InfoPtr.ref _ _ (InfoPtr.ref v s f e) via, steps, path =>
    if steps = 0 ∨ path.length < steps then none
    else fillPathDyn (InfoPtr.ref v s f e) (steps - 1) (path.set (steps - 1) via)

/-- The function `ShortestPathDyn` of dynamic.go for `prune = true`, and the same
function without its pruning step for `prune = false`; `fuel` bounds the number
of passes of the main loop. -/
def shortestPathDynWith {V E : Type} [Beforer V] [Inhabited E] (prune : Bool)
    (g : DynamicGraph V E) (start endv : V) (fuel : Nat) : Option (Result E) :=
  if Before endv start then some ([], some Err.ErrNoPath)
  else
    match dynLoop prune g endv fuel
      { info := [{ v := start, shortest := 0, frm := InfoPtr.nil, via := default }],
        arrived := false, bestLength := 0 } with
    | none => none
    | some s =>
      match s.info with
      | [] => some ([], some Err.ErrNoPath)
      | r0 :: rest =>
        match s.info.get? (scanBest rest 1 0 r0.shortest) with
        | none => none
        | some r =>
          match fillPathDyn r.ptr (countStepsDyn r.ptr 0)
            (List.replicate (countStepsDyn r.ptr 0) default) with
          | none => none
          | some path => some (path, none)

/-- The function `ShortestPathDyn` of dynamic.go; `fuel` bounds the number of
passes of its main loop. -/
def ShortestPathDyn {V E : Type} [Beforer V] [Inhabited E] (g : DynamicGraph V E)
    (start endv : V) (fuel : Nat) : Option (Result E) :=
  shortestPathDynWith true g start endv fuel

/-- The sweep of `ShortestPathDyn` run without the pruning step: a popped record
is always expanded. -/
def ShortestPathDynNoPrune {V E : Type} [Beforer V] [Inhabited E] (g : DynamicGraph V E)
    (start endv : V) (fuel : Nat) : Option (Result E) :=
  shortestPathDynWith false g start endv fuel

/-! ## hist.go -/

/-- The interface `GraphWithHistory[edge, history, length]` of hist.go. -/
structure GraphWithHistory (E H : Type) where
  /-- Appends the outgoing edges of vertex `v` to the slice `ee`. -/
  AppendEdges : List E → Int → List E
  /-- Length of edge `e` starting at vertex `v`, given the history `h` of the path up to `v`. -/
  Length : Int → H → E → Int
  /-- Endpoint of edge `e` starting at vertex `v`. -/
  To : Int → E → Int
  /-- Updates the history `h` with the edge `e` from vertex `v`. -/
  UpdateHistory : H → Int → E → H

/-- The local type `vertexInfo` of `ShortestPathHist`; the field `from` is
written `frm`. -/
structure HistInfo (E H : Type) where
  shortest : Int
  frm : Int
  via : E
  hist : H
  reached : Bool
  deriving DecidableEq

instance {E H : Type} [Inhabited E] [Inhabited H] : Inhabited (HistInfo E H) :=
  ⟨{ shortest := 0, frm := 0, via := default, hist := default, reached := false }⟩

/-- Reads `info[i]` for an index the surrounding code keeps inside the table. -/
def histAt {E H : Type} [Inhabited E] [Inhabited H] (info : List (HistInfo E H)) (i : Nat) :
    HistInfo E H :=
  info.getD i default

/-- One pass of the body of `for _, e := range ee` in `ShortestPathHist`
(hist.go lines 58-69), for the source vertex `v`. -/
def relaxEdgeHist {E H : Type} [Inhabited E] [Inhabited H] (g : GraphWithHistory E H)
    (n v : Nat) (info : List (HistInfo E H)) (e : E) : List (HistInfo E H) :=
  let w := g.To v e
  if w ≤ v ∨ w > n then info
  else
    let newLength := (histAt info v).shortest + g.Length v (histAt info v).hist e
    if !(histAt info w.toNat).reached || newLength < (histAt info w.toNat).shortest then
      info.set w.toNat
        { shortest := newLength, frm := v, via := e,
          hist := g.UpdateHistory (histAt info v).hist v e, reached := true }
    else info

/-- One pass of the body of `for v := 0; v < n; v++` (hist.go lines 56-70); there
is no test of `info[v].reached`. -/
def visitHist {E H : Type} [Inhabited E] [Inhabited H] (g : GraphWithHistory E H) (n : Nat)
    (info : List (HistInfo E H)) (v : Nat) : List (HistInfo E H) :=
  (g.AppendEdges [] v).foldl (relaxEdgeHist g n v) info

/-- The table after the sweep of `ShortestPathHist` (hist.go lines 53-71); the
table starts all zero, `info[0].reached` is not set. -/
def sweepHist {E H : Type} [Inhabited E] [Inhabited H] (g : GraphWithHistory E H) (n : Nat) :
    List (HistInfo E H) :=
  (List.range n).foldl (visitHist g n) (List.replicate (n + 1) default)

/-- Reads `info[v]` for a Go index `v`; `none` when the index is out of range. -/
def lookupHist {E H : Type} (info : List (HistInfo E H)) (v : Int) : Option (HistInfo E H) :=
  if 0 ≤ v then info.get? v.toNat else none

/-- The loop `for v := n; v != 0; v = info[v].from { steps++ }` (hist.go lines 77-80). -/
def countStepsHist {E H : Type} (info : List (HistInfo E H)) : Nat → Int → Nat → Option Nat
  | 0, v, steps => if v = 0 then some steps else none
  | fuel + 1, v, steps =>
    if v = 0 then some steps
    else
      match lookupHist info v with
      | none => none
      | some r => countStepsHist info fuel r.frm (steps + 1)

/-- The loop `for v := n; v != 0; v = info[v].from { steps--; path[steps] = info[v].via }`
(hist.go lines 82-85). -/
def fillPathHist {E H : Type} (info : List (HistInfo E H)) :
    Nat → Int → Nat → List E → Option (List E)
  | 0, v, _, path => if v = 0 then some path else none
  | fuel + 1, v, steps, path =>
    if v = 0 then some path
    else
      match lookupHist info v with
      | none => none
      | some r =>
        if steps = 0 ∨ path.length < steps then none
        else fillPathHist info fuel r.frm (steps - 1) (path.set (steps - 1) r.via)

/-- The function `ShortestPathHist` of hist.go. The two backpointer walks run on
fuel `n`, one unit per step. -/
def ShortestPathHist {E H : Type} [Inhabited E] [Inhabited H] (g : GraphWithHistory E H)
    (n : Int) : Option (Result E) :=
  if n = 0 then some ([], none)
  else if n < 0 then some ([], some Err.ErrNoPath)
  else
    let info := sweepHist g n.toNat
    if !(histAt info n.toNat).reached then some ([], some Err.ErrNoPath)
    else
      match countStepsHist info n.toNat n 0 with
      | none => none
      | some steps =>
        match fillPathHist info n.toNat n steps (List.replicate steps default) with
        | none => none
        | some path => some (path, none)

/-- The plain graph with the same `AppendEdges` and `To` as `g`, and the lengths
`g` gives under the history `h`. -/
def GraphWithHistory.plain {E H : Type} (g : GraphWithHistory E H) (h : H) : Graph E where
  AppendEdges := g.AppendEdges
  Length := fun v e => g.Length v h e
  To := g.To

/-- A history graph whose vertex 0 has no edge and whose vertex 1 has one edge,
to vertex 2; an edge is named by its endpoint, every length is 1 and the history
is ignored. -/
def orphanGraph : GraphWithHistory Int Unit where
  AppendEdges := fun ee v => if v = 1 then ee ++ [2] else ee
  Length := fun _ _ _ => 1
  To := fun _ e => e
  UpdateHistory := fun h _ _ => h

/-! ## Paths of a graph -/

/-- The edges `ShortestPath` enumerates at vertex `v`: `g.AppendEdges(ee[:0], v)`. -/
def edgesOf {E : Type} (g : Graph E) (v : Int) : List E := g.AppendEdges [] v

/-- The list `p` of edges is a path from `u` to `w` whose every edge `e`, leaving
a vertex `v`, is enumerated at `v` and has `v < To(v, e) ≤ n`. -/
inductive IsPath {E : Type} (g : Graph E) (n : Int) : Int → List E → Int → Prop
  | nil (u : Int) : IsPath g n u [] u
  | cons {u w : Int} {e : E} {p : List E} :
      e ∈ edgesOf g u → u < g.To u e → g.To u e ≤ n →
      IsPath g n (g.To u e) p w → IsPath g n u (e :: p) w

/-- Sum of the lengths of the edges of `p`, walked from vertex `u`. -/
def pathLength {E : Type} (g : Graph E) : Int → List E → Int
  | _, [] => 0
  | u, e :: p => g.Length u e + pathLength g (g.To u e) p

/-! ## The invariant of the sweep of ShortestPath -/

/-- The pair `(v, i)`, the `i`-th edge enumerated at `v`, has been relaxed once the
sweep has finished the vertices below `k` and the first `j` edges of `k`. -/
def Done (k j v i : Nat) : Prop := v < k ∨ (v = k ∧ i < j)

/-- The pair `(v', i')` comes before `(v, i)` in sweep order. -/
def Earlier (v' i' v i : Nat) : Prop := v' < v ∨ (v' = v ∧ i' < i)

/-- What the table satisfies once the sweep has finished the vertices below `k`
and the first `j` edges of `k`. -/
structure SweepInv {E : Type} [Inhabited E] (g : Graph E) (n k j : Nat) (info : List (VertexInfo E)) : Prop where
  len : info.length = n + 1
  zero : infoAt info 0 = { shortest := 0, frm := 0, via := default, reached := true }
  back : ∀ w : Nat, 0 < w → w ≤ n → (infoAt info w).reached = true →
    ∃ v i : Nat, (infoAt info w).frm = (v : Int) ∧ Done k j v i ∧ v < w ∧
      (infoAt info v).reached = true ∧
      (edgesOf g v)[i]? = some (infoAt info w).via ∧
      g.To v (infoAt info w).via = (w : Int) ∧
      (infoAt info w).shortest = (infoAt info v).shortest + g.Length v (infoAt info w).via ∧
      ∀ (v' i' : Nat) (e' : E), Earlier v' i' v i → (infoAt info v').reached = true →
        (edgesOf g v')[i']? = some e' → g.To v' e' = (w : Int) →
        (infoAt info w).shortest < (infoAt info v').shortest + g.Length v' e'
  relaxed : ∀ (v i : Nat) (e : E), Done k j v i → (infoAt info v).reached = true →
    (edgesOf g v)[i]? = some e → (v : Int) < g.To v e → g.To v e ≤ (n : Int) →
    (infoAt info (g.To v e).toNat).reached = true ∧
      (infoAt info (g.To v e).toNat).shortest ≤ (infoAt info v).shortest + g.Length v e

/-! ## Example graphs -/

/-- The double-edge graph of dag_test.go (`doubleEdgesGraph`) below its overshoot
guard: every vertex has two parallel edges to its successor, `true` of length 1
and `false` of length 2, enumerated `true` first at even vertices. -/
def doubleEdges : Graph Bool where
  AppendEdges := fun ee v => if v % 2 = 0 then ee ++ [true, false] else ee ++ [false, true]
  Length := fun _ e => if e then 1 else 2
  To := fun v _ => v + 1

/-- A graph whose only edge leads from vertex 0 to vertex 5; an edge is named by
its endpoint. -/
def jumpGraph : Graph Int where
  AppendEdges := fun ee v => if v = 0 then ee ++ [5] else ee
  Length := fun _ _ => 1
  To := fun _ e => e

/-- The edges of `p` are the edges the table records along the vertices `vs`: the
`i`-th edge is `info[b].via` for the reached vertex `b = vs[i+1]`, and the vertex
before it is `info[b].from`. -/
def IsRecorded {E : Type} [Inhabited E] (info : List (VertexInfo E)) (vs : List Int)
    (p : List E) : Prop :=
  ∀ i : Nat, i < p.length → ∃ b : Nat, vs[i + 1]? = some (b : Int) ∧
    (infoAt info b).reached = true ∧ p[i]? = some (infoAt info b).via ∧
    vs[i]? = some (infoAt info b).frm

/-- A graph with two parallel edges of length 1 from vertex 0 to vertex 1,
enumerated as `[true, false]`. -/
def twinGraph : Graph Bool where
  AppendEdges := fun ee v => if v = 0 then ee ++ [true, false] else ee
  Length := fun _ _ => 1
  To := fun _ _ => 1

/-! ## The open set of ShortestPathDyn as a sorted list -/

/-- Sorted insertion into the open set: what the binary search and `placeDyn`
compute together when the open set is sorted. -/
def insertSorted {V E : Type} [Beforer V] (w : V) (newLength : Int) (current : DynInfo V E)
    (e : E) : List (DynInfo V E) → List (DynInfo V E)
  | [] => [freshInfo w newLength current e]
  | r :: rest =>
    if Before r.v w then r :: insertSorted w newLength current e rest
    else if Before w r.v then freshInfo w newLength current e :: r :: rest
    else if newLength < r.shortest then
      { r with shortest := newLength, frm := current.ptr, via := e } :: rest
    else r :: rest

/-! ## The contract of a dynamic graph and its paths -/

/-- `Before` is a strict total order on `V`: irreflexive, transitive, and two
vertices of which neither is before the other are the same vertex. -/
structure StrictTotal (V : Type) [Beforer V] : Prop where
  irrefl : ∀ a : V, Before a a = false
  trans : ∀ a b c : V, Before a b = true → Before b c = true → Before a c = true
  total : ∀ a b : V, Before a b = true ∨ a = b ∨ Before b a = true

/-- `Before` is a strict weak order on `V`: irreflexive, asymmetric, transitive, with
transitive incomparability. -/
structure StrictWeak (V : Type) [Beforer V] : Prop where
  irrefl : ∀ a : V, Before a a = false
  asymm : ∀ a b : V, Before a b = true → Before b a = false
  trans : ∀ a b c : V, Before a b = true → Before b c = true → Before a c = true
  incomp : ∀ a b c : V, Before a b = false → Before b a = false → Before b c = false →
    Before c b = false → Before a c = false ∧ Before c a = false

/-- The edges `ShortestPathDyn` enumerates at vertex `v`: `g.AppendEdges(ee[:0], v)`. -/
def dynEdges {V E : Type} (g : DynamicGraph V E) (v : V) : List E := g.AppendEdges [] v

/-- Every enumerated edge leads strictly forward: `v.Before(To(v, e))`. -/
def Forward {V E : Type} [Beforer V] (g : DynamicGraph V E) : Prop :=
  ∀ (v : V) (e : E), e ∈ dynEdges g v → Before v (g.To v e) = true

/-- Every enumerated edge has a length `≥ 0`. -/
def NonNeg {V E : Type} (g : DynamicGraph V E) : Prop :=
  ∀ (v : V) (e : E), e ∈ dynEdges g v → 0 ≤ g.Length v e

/-- The list `p` of edges is a path from `u` to `w`: each edge is enumerated at the
vertex where the previous one ended. -/
inductive IsDynPath {V E : Type} (g : DynamicGraph V E) : V → List E → V → Prop
  | nil (u : V) : IsDynPath g u [] u
  | cons {u w : V} {e : E} {p : List E} :
      e ∈ dynEdges g u → IsDynPath g (g.To u e) p w → IsDynPath g u (e :: p) w

/-- Sum of the lengths of the edges of `p`, walked from vertex `u`. -/
def dynPathLength {V E : Type} (g : DynamicGraph V E) : V → List E → Int
  | _, [] => 0
  | u, e :: p => g.Length u e + dynPathLength g (g.To u e) p

/-- The open set is strictly increasing with respect to `Before`. -/
def SortedInfo {V E : Type} [Beforer V] (info : List (DynInfo V E)) : Prop :=
  info.Pairwise fun a b => Before a.v b.v = true

/-! ## The invariant of the main loop of ShortestPathDyn -/

/-- The record a pointer leads to was built by the loop: it is the record of `start`
(length 0, no predecessor), or it hangs by an enumerated edge `e` on a well-built
record of a vertex `v'` before `endv`, with `v = To(v', e)` and
`shortest = shortest' + Length(v', e)`. -/
inductive GoodPtr {V E : Type} [Beforer V] (g : DynamicGraph V E) (start endv : V) :
    InfoPtr V E → Prop
  | root (via : E) : GoodPtr g start endv (InfoPtr.ref start 0 InfoPtr.nil via)
  | step {v' : V} {sh' : Int} {frm' : InfoPtr V E} {via' e : E} :
      GoodPtr g start endv (InfoPtr.ref v' sh' frm' via') → Before v' endv = true →
      e ∈ dynEdges g v' →
      GoodPtr g start endv
        (InfoPtr.ref (g.To v' e) (sh' + g.Length v' e) (InfoPtr.ref v' sh' frm' via') e)

/-- The edges along the predecessor links of a record, from `start` on. -/
def ptrPath {V E : Type} : InfoPtr V E → List E
  | InfoPtr.nil => []
  | InfoPtr.ref _ _ InfoPtr.nil _ => []
  | InfoPtr.ref _ _ (InfoPtr.ref v s f e) via => ptrPath (InfoPtr.ref v s f e) ++ [via]

/-- There is a path of length `L` from `start` to `u` all of whose edges leave
vertices in `P`. -/
inductive Dist {V E : Type} (g : DynamicGraph V E) (P : V → Prop) (start : V) :
    V → Int → Prop
  | nil : Dist g P start start 0
  | snoc {v : V} {L : Int} {e : E} :
      Dist g P start v L → P v → e ∈ dynEdges g v →
      Dist g P start (g.To v e) (L + g.Length v e)

/-- What the loop state satisfies at the start of a pass, `ps` being the vertices
popped so far. The bounds on lengths in `complete` hold when the lengths are
non-negative or nothing is pruned; reachability holds in any case. -/
structure DynInv {V E : Type} [Beforer V] (prune : Bool) (g : DynamicGraph V E)
    (start endv : V) (ps : List V) (s : DynState V E) : Prop where
  sorted : SortedInfo s.info
  good : ∀ r ∈ s.info, GoodPtr g start endv r.ptr
  nodup : ps.Nodup
  closed : ∀ x ∈ ps, Before x endv = true ∧ ∀ r ∈ s.info, Before x r.v = true
  complete : ∀ (u : V) (L : Int), Dist g (fun x => x ∈ ps) start u L → u ∉ ps →
    (∃ r ∈ s.info, r.v = u ∧ ((prune = true → NonNeg g) → r.shortest ≤ L)) ∨
      (prune = true ∧ s.arrived = true ∧ (NonNeg g → s.bestLength ≤ L))
  best : s.arrived = true →
    ∃ r ∈ s.info, Before r.v endv = false ∧ r.shortest ≤ s.bestLength

/-- How the state `s'` after relaxing the edges `edges` of the popped record
`current` relates to the state `s` before. -/
structure Relaxed {V E : Type} [Beforer V] (g : DynamicGraph V E) (endv : V)
    (current : DynInfo V E) (edges : List E) (s s' : DynState V E) : Prop where
  sorted : SortedInfo s'.info
  fresh : ∀ r' ∈ s'.info, r' ∈ s.info ∨ ∃ e ∈ edges,
    r' = freshInfo (g.To current.v e) (current.shortest + g.Length current.v e) current e
  mono : ∀ r ∈ s.info, ∃ r' ∈ s'.info, r'.v = r.v ∧ r'.shortest ≤ r.shortest
  found : ∀ e ∈ edges, ∃ r' ∈ s'.info, r'.v = g.To current.v e ∧
    r'.shortest ≤ current.shortest + g.Length current.v e
  arrived : s.arrived = true → s'.arrived = true ∧ s'.bestLength ≤ s.bestLength
  best : (s.arrived = true → ∃ r ∈ s.info, Before r.v endv = false ∧ r.shortest ≤ s.bestLength) →
    s'.arrived = true → ∃ r ∈ s'.info, Before r.v endv = false ∧ r.shortest ≤ s'.bestLength

/-! ## Example dynamic graphs -/

/-- The vertices `0, ..., n-1` in their usual order, as in `doubleVertex` of
dynamic_test.go. -/
instance instBeforerFin (n : Nat) : Beforer (Fin n) := ⟨fun a b => decide (a < b)⟩

/-- A graph on the vertices `0..4` with the edges `0→1` (length 1), `0→2` (length 3),
`1→3`, `2→3` and `3→4` (length 1 each); an edge is named by its endpoint. -/
def branchGraph : DynamicGraph (Fin 5) (Fin 5) where
  AppendEdges := fun ee v =>
    if v = 0 then ee ++ [1, 2] else if v = 1 ∨ v = 2 then ee ++ [3]
    else if v = 3 then ee ++ [4] else ee
  Length := fun v e => if v = 0 ∧ e = 2 then 3 else 1
  To := fun _ e => e

/-- A graph on the vertices `0..4` with the edges `0→3` of length 0, `0→1` of length 1
and `1→4` of length -5; an edge is named by its endpoint. -/
def negGraph : DynamicGraph (Fin 5) (Fin 5) where
  AppendEdges := fun ee v => if v = 0 then ee ++ [3, 1] else if v = 1 then ee ++ [4] else ee
  Length := fun v e => if v = 0 then (if e = 3 then 0 else 1) else -5
  To := fun _ e => e

/-- Vertices `(pos, tag)` ordered by `pos` alone, so that two vertices with the same
`pos` and different tags compare equal without being the same vertex. -/
structure TiedVertex where
  pos : Fin 3
  tag : Bool
  deriving DecidableEq, Fintype

instance : Beforer TiedVertex := ⟨fun a b => decide (a.pos < b.pos)⟩

instance : Inhabited TiedVertex := ⟨⟨0, false⟩⟩

/-- A graph on `TiedVertex` with the edges `(0,false)→(1,false)`, `(0,false)→(1,true)`
and `(1,true)→(2,false)`, each of length 1; an edge is named by its endpoint. -/
def tiedGraph : DynamicGraph TiedVertex TiedVertex where
  AppendEdges := fun ee v =>
    if v = ⟨0, false⟩ then ee ++ [⟨1, false⟩, ⟨1, true⟩]
    else if v = ⟨1, true⟩ then ee ++ [⟨2, false⟩] else ee
  Length := fun _ _ => 1
  To := fun _ e => e

/-! ## Graphs of the tests -/

/-- The graph `linearGraph` of dag_test.go: vertex `v` has the single edge `v+1`,
`To(v, e) = e`, and every length is 1. -/
def linearGraph : Graph Int where
  AppendEdges := fun ee v => ee ++ [v + 1]
  Length := fun _ _ => 1
  To := fun _ e => e

/-- The graph `doubleEdges` cut off at vertex 2: from vertex 2 on, `AppendEdges`
returns nothing and `To` and `Length` are different functions. It stands for a
graph that behaves arbitrarily (the test graph panics) at and beyond the target 2. -/
def doubleEdgesCut : Graph Bool where
  AppendEdges := fun ee v =>
    if 2 ≤ v then ee else if v % 2 = 0 then ee ++ [true, false] else ee ++ [false, true]
  Length := fun v e => if 2 ≤ v then 0 else if e then 1 else 2
  To := fun v _ => if 2 ≤ v then 0 else v + 1

/-- The graph `branchGraph` cut off at vertex 3: from vertex 3 on, `AppendEdges`
returns nothing and `To` and `Length` are different functions. -/
def branchGraphCut : DynamicGraph (Fin 5) (Fin 5) where
  AppendEdges := fun ee v =>
    if v = 0 then ee ++ [1, 2] else if v = 1 ∨ v = 2 then ee ++ [3] else ee
  Length := fun v e => if 3 ≤ v then 0 else if v = 0 ∧ e = 2 then 3 else 1
  To := fun v e => if 3 ≤ v then 0 else e

/-! ## The passes of the main loop of ShortestPathDyn -/

/-- The state after one pass of the main loop of `ShortestPathDyn` that pops
`current` and leaves `rest` (dynamic.go lines 45-88). -/
def dynPass {V E : Type} [Beforer V] (prune : Bool) (g : DynamicGraph V E) (endv : V)
    (s : DynState V E) (current : DynInfo V E) (rest : List (DynInfo V E)) : DynState V E :=
  if prune && s.arrived && decide (current.shortest ≥ s.bestLength) then { s with info := rest }
  else (g.AppendEdges [] current.v).foldl (relaxDyn g endv current) { s with info := rest }

/-- The states of the main loop of `ShortestPathDyn` at the start of each pass, in
order; the last one is the state at loop exit, or the state at which the fuel ran
out. -/
def dynTrace {V E : Type} [Beforer V] (prune : Bool) (g : DynamicGraph V E) (endv : V) :
    Nat → DynState V E → List (DynState V E)
  | 0, s => [s]
  | fuel + 1, s =>
    match s.info with
    | [] => [s]
    | current :: rest =>
      if Before current.v endv then
        s :: dynTrace prune g endv fuel (dynPass prune g endv s current rest)
      else [s]

/-- The state in which `ShortestPathDyn` enters its main loop. -/
def dynInit {V E : Type} [Inhabited E] (start : V) : DynState V E :=
  { info := [{ v := start, shortest := 0, frm := InfoPtr.nil, via := default }],
    arrived := false, bestLength := 0 }

/-! ## ShortestPathHist against ShortestPath -/

/-- The table of `ShortestPathHist` and the table of `ShortestPath` hold the same
lengths, predecessors and edges, and the same `reached` flags above index 0
(`ShortestPathHist` never sets `info[0].reached`). -/
def HistSim {E H : Type} [Inhabited E] [Inhabited H] (hinfo : List (HistInfo E H))
    (info : List (VertexInfo E)) : Prop :=
  hinfo.length = info.length ∧
    ∀ i : Nat, (histAt hinfo i).shortest = (infoAt info i).shortest ∧
      (histAt hinfo i).frm = (infoAt info i).frm ∧
      (histAt hinfo i).via = (infoAt info i).via ∧
      (0 < i → (histAt hinfo i).reached = (infoAt info i).reached)

/-- A history graph in which vertex `v` has the edges `v+1` and `v+2` (an edge is
named by its endpoint), every length is 1 whatever the history, and the history
counts the edges of the path. -/
def histChain : GraphWithHistory Int Nat where
  AppendEdges := fun ee v => ee ++ [v + 1, v + 2]
  Length := fun _ _ _ => 1
  To := fun _ e => e
  UpdateHistory := fun h _ _ => h + 1

/-- A dynamic graph on the vertices `0 < 1` whose only edge leads from vertex 0 to
vertex 0 itself, with length 1; an edge is named by its endpoint. -/
def selfLoopGraph : DynamicGraph (Fin 2) (Fin 2) where
  AppendEdges := fun ee v => if v = 0 then ee ++ [0] else ee
  Length := fun _ _ => 1
  To := fun _ e => e

/-- The same self-loop for the index-bounded engine: the only edge leads from
vertex 0 to vertex 0. -/
def selfLoopPlain : Graph Int where
  AppendEdges := fun ee v => if v = 0 then ee ++ [0] else ee
  Length := fun _ _ => 1
  To := fun _ e => e

/-! # Theorems -/

variable {E : Type} [Inhabited E]

set_option linter.unusedSectionVars false

/-! ## The sweep of ShortestPath -/

theorem infoAt_set_eq (info : List (VertexInfo E)) (i : Nat) (x : VertexInfo E)
    (h : i < info.length) : infoAt (info.set i x) i = x := by
  simp [infoAt, List.getD_eq_getElem?_getD, h]

theorem infoAt_set_ne (info : List (VertexInfo E)) (i j : Nat) (x : VertexInfo E)
    (h : i ≠ j) : infoAt (info.set i x) j = infoAt info j := by
  simp [infoAt, List.getD_eq_getElem?_getD, List.getElem?_set_ne h]

theorem sweepInv_init (g : Graph E) (n : Nat) : SweepInv g n 0 0 (initInfo E n) where
  len := by simp [initInfo]
  zero := by
    unfold initInfo
    rw [infoAt_set_eq _ _ _ (by simp)]
    rfl
  back := by
    intro w hw _ hr
    exfalso
    unfold initInfo at hr
    rw [infoAt_set_ne _ _ _ _ (by omega)] at hr
    simp only [infoAt, List.getD_eq_getElem?_getD] at hr
    by_cases hi : w < n + 1
    · simp [List.getElem?_replicate, hi] at hr
    · simp [List.getElem?_replicate, hi] at hr
  relaxed := by
    intro v i e hd
    rcases hd with h | ⟨_, h⟩ <;> omega

theorem relaxEdge_eq (g : Graph E) (n v : Nat) (info : List (VertexInfo E)) (e : E) :
    relaxEdge g n v info e =
      if g.To v e ≤ v ∨ g.To v e > n then info
      else if (infoAt info (g.To v e).toNat).reached = false ∨
          (infoAt info v).shortest + g.Length v e < (infoAt info (g.To v e).toNat).shortest then
        info.set (g.To v e).toNat
          { shortest := (infoAt info v).shortest + g.Length v e, frm := v, via := e, reached := true }
      else info := by
  unfold relaxEdge
  simp only []
  split
  · rfl
  · congr 1
    simp [Bool.or_eq_true]


theorem sweepInv_keep {g : Graph E} {n k j : Nat} {info : List (VertexInfo E)}
    (h : SweepInv g n k j info)
    (hnew : ∀ e : E, (edgesOf g k)[j]? = some e → (infoAt info k).reached = true →
      (k : Int) < g.To k e → g.To k e ≤ (n : Int) →
      (infoAt info (g.To k e).toNat).reached = true ∧
        (infoAt info (g.To k e).toNat).shortest ≤ (infoAt info k).shortest + g.Length k e) :
    SweepInv g n k (j + 1) info where
  len := h.len
  zero := h.zero
  back := by
    intro w hw hwn hr
    obtain ⟨v, i, h1, h2, h3⟩ := h.back w hw hwn hr
    refine ⟨v, i, h1, ?_, h3⟩
    rcases h2 with h2 | ⟨h2, h2'⟩
    · exact Or.inl h2
    · exact Or.inr ⟨h2, by omega⟩
  relaxed := by
    intro v i e hd hr he h1 h2
    by_cases hold : Done k j v i
    · exact h.relaxed v i e hold hr he h1 h2
    · have hv : v = k ∧ i = j := by
        rcases hd with hd | ⟨hd, hd'⟩
        · exact absurd (Or.inl hd) hold
        · refine ⟨hd, ?_⟩
          by_contra hne
          exact hold (Or.inr ⟨hd, by omega⟩)
      obtain ⟨rfl, rfl⟩ := hv
      exact hnew e he hr h1 h2

theorem sweepInv_step {g : Graph E} {n k j : Nat} {info : List (VertexInfo E)} {e : E}
    (h : SweepInv g n k j info) (hr : (infoAt info k).reached = true)
    (he : (edgesOf g k)[j]? = some e) :
    SweepInv g n k (j + 1) (relaxEdge g n k info e) := by
  rw [relaxEdge_eq]
  split
  · rename_i hskip
    refine sweepInv_keep h ?_
    intro e' he' _ h1 h2
    rw [he] at he'
    cases he'
    omega
  rename_i hgo
  have hw1 : (k : Int) < g.To k e := by omega
  have hw2 : g.To k e ≤ (n : Int) := by omega
  split
  · rename_i hupd
    obtain ⟨w, hw⟩ : ∃ w : Nat, g.To k e = (w : Int) := ⟨(g.To k e).toNat, by omega⟩
    rw [hw] at hw1 hw2 hupd ⊢
    simp only [Int.toNat_ofNat] at hupd ⊢
    have hkw : k < w := by omega
    have hwn : w ≤ n := by omega
    have hlen : w < info.length := by rw [h.len]; omega
    have hframe : ∀ i : Nat, i ≤ k →
        infoAt (info.set w
          { shortest := (infoAt info k).shortest + g.Length k e, frm := k, via := e, reached := true })
          i = infoAt info i := by
      intro i hi
      exact infoAt_set_ne _ _ _ _ (by omega)
    constructor
    · rw [List.length_set]; exact h.len
    · rw [hframe 0 (by omega)]; exact h.zero
    · intro w' hw' hwn' hr'
      by_cases hww : w' = w
      · subst hww
        rw [infoAt_set_eq _ _ _ hlen]
        refine ⟨k, j, rfl, Or.inr ⟨rfl, by omega⟩, hkw, ?_, he, hw, ?_, ?_⟩
        · rw [hframe k (le_refl k)]; exact hr
        · rw [hframe k (le_refl k)]
        · intro v' i' e' hearlier hr'' he' hto
          have hv'k : v' ≤ k := by
            rcases hearlier with h1 | ⟨h1, _⟩ <;> omega
          rw [hframe v' hv'k] at hr'' ⊢
          have hdone : Done k j v' i' := by
            rcases hearlier with h1 | ⟨h1, h2⟩
            · exact Or.inl h1
            · exact Or.inr ⟨h1, h2⟩
          have := h.relaxed v' i' e' hdone hr'' he' (by rw [hto]; omega) (by rw [hto]; omega)
          rw [hto] at this
          simp only [Int.toNat_ofNat] at this
          rcases hupd with hupd | hupd
          · rw [this.1] at hupd; exact absurd hupd (by decide)
          · exact lt_of_lt_of_le hupd this.2
      · rw [infoAt_set_ne _ _ _ _ (Ne.symm hww)] at hr' ⊢
        obtain ⟨v, i, h1, h2, h3, h4, h5, h6, h7, h8⟩ := h.back w' hw' hwn' hr'
        have hvk : v ≤ k := by
          rcases h2 with h2 | ⟨h2, _⟩ <;> omega
        refine ⟨v, i, h1, ?_, h3, ?_, h5, h6, ?_, ?_⟩
        · rcases h2 with h2 | ⟨h2, h2'⟩
          · exact Or.inl h2
          · exact Or.inr ⟨h2, by omega⟩
        · rw [hframe v hvk]; exact h4
        · rw [hframe v hvk]; exact h7
        · intro v' i' e' hearlier hr'' he' hto
          have hv'k : v' ≤ k := by
            rcases hearlier with h1 | ⟨h1, _⟩ <;> omega
          rw [hframe v' hv'k] at hr'' ⊢
          exact h8 v' i' e' hearlier hr'' he' hto
    · intro v i e' hd hr' he' h1 h2
      have hvk : v ≤ k := by
        rcases hd with hd | ⟨hd, _⟩ <;> omega
      rw [hframe v hvk] at hr' ⊢
      obtain ⟨t, ht⟩ : ∃ t : Nat, g.To v e' = (t : Int) := ⟨(g.To v e').toNat, by omega⟩
      rw [ht] at h1 h2 ⊢
      simp only [Int.toNat_ofNat]
      by_cases htw : t = w
      · subst htw
        rw [infoAt_set_eq _ _ _ hlen]
        refine ⟨rfl, ?_⟩
        show (infoAt info k).shortest + g.Length k e ≤ _
        by_cases hold : Done k j v i
        · have := h.relaxed v i e' hold hr' he' (by rw [ht]; omega) (by rw [ht]; omega)
          rw [ht] at this
          simp only [Int.toNat_ofNat] at this
          rcases hupd with hupd | hupd
          · rw [this.1] at hupd; exact absurd hupd (by decide)
          · exact le_of_lt (lt_of_lt_of_le hupd this.2)
        · have hv : v = k ∧ i = j := by
            rcases hd with hd | ⟨hd, hd'⟩
            · exact absurd (Or.inl hd) hold
            · refine ⟨hd, ?_⟩
              by_contra hne
              exact hold (Or.inr ⟨hd, by omega⟩)
          obtain ⟨rfl, rfl⟩ := hv
          rw [he] at he'
          cases he'
          exact le_refl _
      · rw [infoAt_set_ne _ _ _ _ (Ne.symm htw)]
        have hold : Done k j v i := by
          rcases hd with hd | ⟨hd, hd'⟩
          · exact Or.inl hd
          · refine Or.inr ⟨hd, ?_⟩
            by_contra hne
            have hij : i = j := by omega
            subst hd; subst hij
            rw [he] at he'
            cases he'
            rw [hw] at ht
            exact htw (by omega)
        have := h.relaxed v i e' hold hr' he' (by rw [ht]; omega) (by rw [ht]; omega)
        rw [ht] at this
        simpa only [Int.toNat_ofNat] using this
  · rename_i hno
    refine sweepInv_keep h ?_
    intro e' he' _ _ _
    rw [he] at he'
    cases he'
    push_neg at hno
    refine ⟨by simpa using hno.1, hno.2⟩

theorem relaxEdge_frame (g : Graph E) (n v : Nat) (info : List (VertexInfo E)) (e : E)
    (i : Nat) (hi : i ≤ v) : infoAt (relaxEdge g n v info e) i = infoAt info i := by
  rw [relaxEdge_eq]
  split
  · rfl
  · split
    · exact infoAt_set_ne _ _ _ _ (by omega)
    · rfl

theorem sweepInv_foldl {g : Graph E} {n k : Nat} :
    ∀ (rest pre : List E) (info : List (VertexInfo E)), pre ++ rest = edgesOf g k →
      (infoAt info k).reached = true → SweepInv g n k pre.length info →
      SweepInv g n k (edgesOf g k).length (rest.foldl (relaxEdge g n k) info) := by
  intro rest
  induction rest with
  | nil =>
    intro pre info hpre _ h
    simp only [List.append_nil] at hpre
    rw [← hpre]
    exact h
  | cons e rest ih =>
    intro pre info hpre hr h
    have he : (edgesOf g k)[pre.length]? = some e := by
      rw [← hpre, List.getElem?_append_right (le_refl _)]; simp
    have hstep := sweepInv_step h hr he
    have hr' : (infoAt (relaxEdge g n k info e) k).reached = true := by
      rw [relaxEdge_frame _ _ _ _ _ _ (le_refl k)]; exact hr
    have := ih (pre ++ [e]) (relaxEdge g n k info e) (by simp [hpre]) hr'
      (by simpa using hstep)
    simpa using this

theorem sweepInv_next {g : Graph E} {n k j : Nat} {info : List (VertexInfo E)}
    (h : SweepInv g n k j info)
    (hj : (infoAt info k).reached = true → (edgesOf g k).length ≤ j) :
    SweepInv g n (k + 1) 0 info where
  len := h.len
  zero := h.zero
  back := by
    intro w hw hwn hr
    obtain ⟨v, i, h1, h2, h3⟩ := h.back w hw hwn hr
    refine ⟨v, i, h1, Or.inl ?_, h3⟩
    rcases h2 with h2 | ⟨h2, _⟩ <;> omega
  relaxed := by
    intro v i e hd hr he h1 h2
    refine h.relaxed v i e ?_ hr he h1 h2
    rcases hd with hd | ⟨_, hd⟩
    · by_cases hvk : v < k
      · exact Or.inl hvk
      · have hvk' : v = k := by omega
        subst hvk'
        refine Or.inr ⟨rfl, ?_⟩
        have := hj hr
        have hi : i < (edgesOf g v).length := by
          by_contra hcon
          rw [List.getElem?_eq_none (by omega)] at he
          cases he
        omega
    · omega

theorem sweepInv_visit {g : Graph E} {n k : Nat} {info : List (VertexInfo E)}
    (h : SweepInv g n k 0 info) : SweepInv g n (k + 1) 0 (visit g n info k) := by
  unfold visit
  split
  · rename_i hr
    refine sweepInv_next h ?_
    intro hr'
    rw [hr'] at hr
    exact absurd hr (by decide)
  · rename_i hr
    have hr' : (infoAt info k).reached = true := by simpa using hr
    have := sweepInv_foldl (g := g) (n := n) (k := k) (edgesOf g k) [] info rfl hr' h
    exact sweepInv_next this (fun _ => le_refl _)

theorem sweepInv_range (g : Graph E) (n : Nat) :
    ∀ k : Nat, SweepInv g n k 0 ((List.range k).foldl (visit g n) (initInfo E n)) := by
  intro k
  induction k with
  | zero => exact sweepInv_init g n
  | succ k ih =>
    rw [List.range_succ, List.foldl_append]
    exact sweepInv_visit ih

theorem sweepInv_sweep (g : Graph E) (n : Nat) : SweepInv g n n 0 (sweep g n) :=
  sweepInv_range g n n

/-! ## Path reconstruction in ShortestPath -/

theorem isPath_snoc {g : Graph E} {n u v : Int} {p : List E} {e : E}
    (h : IsPath g n u p v) (he : e ∈ edgesOf g v) (h1 : v < g.To v e) (h2 : g.To v e ≤ n) :
    IsPath g n u (p ++ [e]) (g.To v e) := by
  induction h with
  | nil u => exact IsPath.cons he h1 h2 (IsPath.nil _)
  | cons a b c _ ih => exact IsPath.cons a b c (ih he h1 h2)

theorem pathLength_snoc {g : Graph E} {n u v : Int} {p : List E} (e : E)
    (h : IsPath g n u p v) :
    pathLength g u (p ++ [e]) = pathLength g u p + g.Length v e := by
  induction h with
  | nil u => simp [pathLength]
  | cons a b c _ ih =>
    show g.Length _ _ + pathLength g _ (_ ++ [e]) = _
    rw [ih]
    show _ = g.Length _ _ + pathLength g _ _ + _
    ring

theorem lookup_natCast (info : List (VertexInfo E)) (w : Nat) (h : w < info.length) :
    lookup info (w : Int) = some (infoAt info w) := by
  simp [lookup, infoAt, List.getD_eq_getElem?_getD, h]

theorem take_set_le (l : List E) (a : E) {m n : Nat} (h : m ≤ n) :
    (l.set n a).take m = l.take m := by
  apply List.ext_getElem?
  intro i
  rw [List.getElem?_take, List.getElem?_take]
  split
  · rw [List.getElem?_set_ne (by omega)]
  · rfl

theorem drop_set_self (l : List E) (a : E) {n : Nat} (h : n < l.length) :
    (l.set n a).drop n = a :: l.drop (n + 1) := by
  rw [List.drop_set, if_neg (lt_irrefl n), Nat.sub_self,
    List.drop_eq_getElem_cons h, List.set_cons_zero]

theorem walk_spec {g : Graph E} {n : Nat} {info : List (VertexInfo E)}
    (h : SweepInv g n n 0 info) :
    ∀ w : Nat, w ≤ n → (infoAt info w).reached = true →
      ∃ p : List E, IsPath g n 0 p w ∧ pathLength g 0 p = (infoAt info w).shortest ∧
        (∀ fuel s : Nat, w ≤ fuel → countSteps info fuel w s = some (s + p.length)) ∧
        (∀ (fuel s : Nat) (path : List E), w ≤ fuel → p.length ≤ s → s ≤ path.length →
          fillPath info fuel w s path = some (path.take (s - p.length) ++ p ++ path.drop s)) ∧
        ∃ vs : List Int, vs.length = p.length + 1 ∧ vs[0]? = some 0 ∧
          vs[p.length]? = some (w : Int) ∧ IsRecorded info vs p := by
  intro w
  induction w using Nat.strong_induction_on with
  | _ w ih =>
    intro hwn hr
    rcases Nat.eq_zero_or_pos w with rfl | hpos
    · refine ⟨[], IsPath.nil _, ?_, ?_, ?_, ?_⟩
      · rw [h.zero]; rfl
      · intro fuel s _
        cases fuel <;> simp [countSteps]
      · intro fuel s path _ _ _
        cases fuel <;> simp [fillPath]
      · exact ⟨[0], rfl, rfl, rfl, fun i hi => absurd hi (by simp)⟩
    · obtain ⟨v, i, h1, _, h3, h4, h5, h6, h7, _⟩ := h.back w hpos hwn hr
      obtain ⟨p, hp1, hp2, hp3, hp4, vs, hv1, hv2, hv3, hv4⟩ := ih v h3 (by omega) h4
      have hmem : (infoAt info w).via ∈ edgesOf g v := List.getElem?_mem h5
      have hlk : lookup info (w : Int) = some (infoAt info w) :=
        lookup_natCast info w (by rw [h.len]; omega)
      have hw0 : ¬ ((w : Int) = 0) := by omega
      refine ⟨p ++ [(infoAt info w).via], ?_, ?_, ?_, ?_, ?_⟩
      · have := isPath_snoc hp1 hmem (by rw [h6]; omega) (by rw [h6]; omega)
        rwa [h6] at this
      · rw [pathLength_snoc _ hp1, hp2, h7]
      · intro fuel s hf
        obtain ⟨fuel, rfl⟩ : ∃ f, fuel = f + 1 := ⟨fuel - 1, by omega⟩
        simp only [countSteps, hw0, if_false, hlk, h1]
        rw [hp3 fuel (s + 1) (by omega)]
        simp only [List.length_append, List.length_singleton]
        congr 1; omega
      · intro fuel s path hf hs hs'
        simp only [List.length_append, List.length_singleton] at hs
        obtain ⟨fuel, rfl⟩ : ∃ f, fuel = f + 1 := ⟨fuel - 1, by omega⟩
        have hcond : ¬ (s = 0 ∨ path.length < s) := by omega
        simp only [fillPath, hw0, if_false, hlk, h1, hcond]
        rw [hp4 fuel (s - 1) _ (by omega) (by omega) (by rw [List.length_set]; omega)]
        congr 1
        simp only [List.length_append, List.length_singleton]
        have e1 : (path.set (s - 1) (infoAt info w).via).take (s - 1 - p.length)
            = path.take (s - (p.length + 1)) := by
          rw [take_set_le _ _ (by omega)]
          congr 1
          omega
        have e2 : (path.set (s - 1) (infoAt info w).via).drop (s - 1)
            = (infoAt info w).via :: path.drop s := by
          rw [drop_set_self _ _ (by omega)]
          congr 2
          omega
        rw [e1, e2]
        simp
      · have hvl : p.length < vs.length := by omega
        refine ⟨vs ++ [(w : Int)], by simp [hv1], ?_, ?_, ?_⟩
        · rw [List.getElem?_append_left (by omega)]; exact hv2
        · rw [List.length_append, List.length_singleton,
            List.getElem?_append_right (by omega)]
          simp [hv1]
        · intro i hi
          simp only [List.length_append, List.length_singleton] at hi
          by_cases hip : i < p.length
          · obtain ⟨b, hb1, hb2, hb3, hb4⟩ := hv4 i hip
            refine ⟨b, ?_, hb2, ?_, ?_⟩
            · rw [List.getElem?_append_left (by omega)]; exact hb1
            · rw [List.getElem?_append_left hip]; exact hb3
            · rw [List.getElem?_append_left (by omega)]; exact hb4
          · have hi' : i = p.length := by omega
            subst hi'
            refine ⟨w, ?_, hr, ?_, ?_⟩
            · rw [List.getElem?_append_right (by omega)]
              simp [hv1]
            · rw [List.getElem?_append_right (le_refl _)]
              simp
            · rw [List.getElem?_append_left hvl, h1]; exact hv3

/-! ## What ShortestPath returns -/

theorem sweep_le_path {g : Graph E} {n : Nat} {info : List (VertexInfo E)}
    (h : SweepInv g n n 0 info) {u w : Int} {p : List E} (hp : IsPath g n u p w) :
    ∀ u' : Nat, u = (u' : Int) → (infoAt info u').reached = true →
      (infoAt info w.toNat).reached = true ∧
        (infoAt info w.toNat).shortest ≤ (infoAt info u').shortest + pathLength g u p := by
  induction hp with
  | nil u =>
    intro u' hu hr
    subst hu
    simp [pathLength, hr]
  | @cons u w e p he h1 h2 _ ih =>
    intro u' hu hr
    subst hu
    obtain ⟨i, hi⟩ := List.mem_iff_getElem?.1 he
    have hrel := h.relaxed u' i e (Or.inl (by omega)) hr hi h1 h2
    have := ih (g.To u' e).toNat (by omega) hrel.1
    refine ⟨this.1, ?_⟩
    simp only [pathLength]
    linarith [this.2, hrel.2]

/-- What `ShortestPath` returns for a positive target, read off the table the
sweep leaves behind. -/
theorem shortestPath_cases (g : Graph E) (n : Int) (hn : 0 < n) :
    ((infoAt (sweep g n.toNat) n.toNat).reached = false ∧
        ShortestPath g n = some ([], some Err.ErrNoPath)) ∨
      ((infoAt (sweep g n.toNat) n.toNat).reached = true ∧
        ∃ p : List E, ShortestPath g n = some (p, none) ∧ IsPath g n 0 p n ∧
          pathLength g 0 p = (infoAt (sweep g n.toNat) n.toNat).shortest ∧
          ∃ vs : List Int, vs.length = p.length + 1 ∧ vs[0]? = some 0 ∧
            vs[p.length]? = some n ∧ IsRecorded (sweep g n.toNat) vs p) := by
  obtain ⟨m, rfl⟩ : ∃ m : Nat, n = (m : Int) := ⟨n.toNat, by omega⟩
  have hinv := sweepInv_sweep g m
  have hn0 : ¬ ((m : Int) = 0) := by omega
  have hn1 : ¬ ((m : Int) < 0) := by omega
  simp only [Int.toNat_ofNat]
  cases hr : (infoAt (sweep g m) m).reached with
  | false =>
    left
    refine ⟨rfl, ?_⟩
    simp [ShortestPath, hn0, hn1, hr]
  | true =>
    right
    refine ⟨rfl, ?_⟩
    obtain ⟨p, hp1, hp2, hp3, hp4, hp5⟩ := walk_spec hinv m (le_refl m) hr
    refine ⟨p, ?_, hp1, hp2, hp5⟩
    have h4 := hp4 m p.length (List.replicate p.length default) (le_refl m) (le_refl _)
      (by simp)
    simp only [ShortestPath, hn0, hn1, if_false, Int.toNat_ofNat, hr, hp3 m 0 (le_refl m)]
    simp at h4
    simp [h4]

/-! ## Correctness of ShortestPath -/

theorem isPath_vertices {g : Graph E} {n u w : Int} {p : List E} (h : IsPath g n u p w) :
    ∃ vs : List Int, vs.length = p.length + 1 ∧ vs[0]? = some u ∧ vs[p.length]? = some w ∧
      ∀ i : Nat, i < p.length → ∃ (a b : Int) (e : E), vs[i]? = some a ∧
        vs[i + 1]? = some b ∧ p[i]? = some e ∧ a < b ∧ e ∈ edgesOf g a ∧ g.To a e = b := by
  induction h with
  | nil u => exact ⟨[u], by simp⟩
  | @cons u w e p he h1 h2 _ ih =>
    obtain ⟨vs, hlen, h0, hlast, hall⟩ := ih
    refine ⟨u :: vs, by simp [hlen], by simp, by simpa using hlast, ?_⟩
    intro i hi
    cases i with
    | zero => exact ⟨u, g.To u e, e, by simp, by simpa using h0, by simp, h1, he, rfl⟩
    | succ i =>
      obtain ⟨a, b, e', ha, hb, he', hab, hmem, hto⟩ := hall i (by simpa using hi)
      exact ⟨a, b, e', by simpa using ha, by simpa using hb, by simpa using he', hab, hmem, hto⟩

/-- C1. `ShortestPath` is optimal: for a positive target `n`, a path `p` returned
without error is no longer than any path `q` from vertex 0 to vertex `n` made of
enumerated edges `e` leaving `v` with `v < To(v, e) ≤ n`. Lengths are integers and
may be negative. -/
theorem shortestPath_optimal (g : Graph E) (n : Int) (hn : 0 < n) (p : List E)
    (h : ShortestPath g n = some (p, none)) (q : List E) (hq : IsPath g n 0 q n) :
    pathLength g 0 p ≤ pathLength g 0 q := by
  have hinv := sweepInv_sweep g n.toNat
  have hq' : IsPath g (n.toNat : Int) 0 q n := by rwa [Int.toNat_of_nonneg (le_of_lt hn)]
  have hle := sweep_le_path hinv hq' 0 rfl (by rw [hinv.zero])
  rw [hinv.zero] at hle
  rcases shortestPath_cases g n hn with ⟨_, h2⟩ | ⟨_, p', h2, _, h4, _⟩
  · rw [h2] at h; cases h
  · rw [h2] at h
    cases h
    rw [h4]
    simpa using hle.2

theorem shortestPath_optimal_witness :
    pathLength doubleEdges 0 [true, true] ≤ pathLength doubleEdges 0 [false, true] :=
  shortestPath_optimal doubleEdges 2 (by decide) [true, true] (by decide) [false, true]
    (IsPath.cons (by decide) (by decide) (by decide)
      (IsPath.cons (by decide) (by decide) (by decide) (IsPath.nil _)))

/-- C2. `ShortestPath` returns a genuine path from 0 to `n`: when it returns
`p = [e_0, ..., e_(k-1)]` without error for a positive `n`, there are vertices
`0 = v_0 < v_1 < ... < v_k = n` such that `e_i` is enumerated by `AppendEdges` at
`v_i` and `To(v_i, e_i) = v_(i+1)`. -/
theorem shortestPath_genuine (g : Graph E) (n : Int) (hn : 0 < n) (p : List E)
    (h : ShortestPath g n = some (p, none)) :
    ∃ vs : List Int, vs.length = p.length + 1 ∧ vs[0]? = some 0 ∧ vs[p.length]? = some n ∧
      ∀ i : Nat, i < p.length → ∃ (a b : Int) (e : E), vs[i]? = some a ∧
        vs[i + 1]? = some b ∧ p[i]? = some e ∧ a < b ∧ e ∈ edgesOf g a ∧ g.To a e = b := by
  rcases shortestPath_cases g n hn with ⟨_, h2⟩ | ⟨_, p', h2, h3, _, _⟩
  · rw [h2] at h; cases h
  · rw [h2] at h
    cases h
    exact isPath_vertices h3

theorem shortestPath_genuine_witness :
    ∃ vs : List Int, vs.length = [true, true].length + 1 ∧ vs[0]? = some 0 ∧
      vs[[true, true].length]? = some 2 ∧
      ∀ i : Nat, i < [true, true].length → ∃ (a b : Int) (e : Bool), vs[i]? = some a ∧
        vs[i + 1]? = some b ∧ [true, true][i]? = some e ∧ a < b ∧
        e ∈ edgesOf doubleEdges a ∧ doubleEdges.To a e = b :=
  shortestPath_genuine doubleEdges 2 (by decide) [true, true] (by decide)

theorem shortestPath_reach (g : Graph E) (n : Int) (hn : 0 < n) :
    (ShortestPath g n = some ([], some Err.ErrNoPath) ↔ ¬ ∃ q : List E, IsPath g n 0 q n) ∧
      ((∃ q : List E, IsPath g n 0 q n) → ∃ p : List E, ShortestPath g n = some (p, none)) := by
  have hinv := sweepInv_sweep g n.toNat
  have hreach : (∃ q : List E, IsPath g n 0 q n) →
      (infoAt (sweep g n.toNat) n.toNat).reached = true := by
    rintro ⟨q, hq⟩
    have hq' : IsPath g (n.toNat : Int) 0 q n := by rwa [Int.toNat_of_nonneg (le_of_lt hn)]
    exact (sweep_le_path hinv hq' 0 rfl (by rw [hinv.zero])).1
  rcases shortestPath_cases g n hn with ⟨h1, h2⟩ | ⟨h1, p, h2, h3, _, _⟩
  · refine ⟨⟨fun _ hq => ?_, fun _ => h2⟩, fun hq => ?_⟩
    · rw [hreach hq] at h1; cases h1
    · rw [hreach hq] at h1; cases h1
  · refine ⟨⟨fun h => ?_, fun hq => absurd ⟨p, h3⟩ hq⟩, fun _ => ⟨p, h2⟩⟩
    rw [h2] at h; cases h

/-- C3. `ShortestPath` fails exactly when `n` is unreachable: for a positive `n` it
returns `(nil, ErrNoPath)` if and only if there is no path from vertex 0 to vertex
`n` made of enumerated edges `e` leaving `v` with `v < To(v, e) ≤ n`; in every other
case it returns a path with a nil error. -/
theorem shortestPath_errNoPath_iff (g : Graph E) (n : Int) (hn : 0 < n) :
    (ShortestPath g n = some ([], some Err.ErrNoPath) ↔ ¬ ∃ q : List E, IsPath g n 0 q n) ∧
      ((∃ q : List E, IsPath g n 0 q n) → ∃ p : List E, ShortestPath g n = some (p, none)) :=
  shortestPath_reach g n hn

theorem shortestPath_errNoPath_iff_witness :
    (ShortestPath jumpGraph 3 = some ([], some Err.ErrNoPath) ↔
        ¬ ∃ q : List Int, IsPath jumpGraph 3 0 q 3) ∧
      ((∃ q : List Int, IsPath jumpGraph 3 0 q 3) →
        ∃ p : List Int, ShortestPath jumpGraph 3 = some (p, none)) :=
  shortestPath_errNoPath_iff jumpGraph 3 (by decide)

/-- C9 fails on the code: in `jumpGraph` vertex 5 is reachable from vertex 0 by a
forward edge and `5 ≥ 3`, so by the doc comment of `ShortestPath` ("ErrNoPath is
returned if there is no path from start to a vertex >= end. Otherwise, the path is
returned") a path is due; `ShortestPath(g, 3)` skips the edge (`w > n`) and returns
`(nil, ErrNoPath)`. -/
theorem shortestPath_overshoot :
    IsPath jumpGraph 5 0 [5] 5 ∧ (3 : Int) ≤ 5 ∧
      ShortestPath jumpGraph 3 = some ([], some Err.ErrNoPath) ∧
      ¬ ∃ p : List Int, ShortestPath jumpGraph 3 = some (p, none) := by
  refine ⟨IsPath.cons (by decide) (by decide) (by decide) (IsPath.nil _), by decide,
    by decide, ?_⟩
  rintro ⟨p, hp⟩
  have h : ShortestPath jumpGraph 3 = some ([], some Err.ErrNoPath) := by decide
  rw [h] at hp
  cases hp

/-- What `ShortestPath` does guarantee for a positive `n`: whenever vertex `n` itself
is reachable from vertex 0 by enumerated forward edges, it returns a path with a
nil error; and it returns `ErrNoPath` when no vertex `w ≥ n` is reachable from
vertex 0 by forward edges. -/
theorem shortestPath_reaches_target (g : Graph E) (n : Int) (hn : 0 < n) :
    ((∃ q : List E, IsPath g n 0 q n) → ∃ p : List E, ShortestPath g n = some (p, none)) ∧
      ((¬ ∃ (w : Int) (q : List E), n ≤ w ∧ IsPath g w 0 q w) →
        ShortestPath g n = some ([], some Err.ErrNoPath)) := by
  have h := shortestPath_reach g n hn
  refine ⟨h.2, fun hno => h.1.2 ?_⟩
  rintro ⟨q, hq⟩
  exact hno ⟨n, q, le_refl n, hq⟩

theorem shortestPath_reaches_target_witness :
    ((∃ q : List Bool, IsPath doubleEdges 2 0 q 2) →
        ∃ p : List Bool, ShortestPath doubleEdges 2 = some (p, none)) ∧
      ((¬ ∃ (w : Int) (q : List Bool), 2 ≤ w ∧ IsPath doubleEdges w 0 q w) →
        ShortestPath doubleEdges 2 = some ([], some Err.ErrNoPath)) :=
  shortestPath_reaches_target doubleEdges 2 (by decide)

/-! ## ShortestPathHist on a vertex that is never reached -/

/-- C8 fails on the code: in `orphanGraph` vertex 0 has no edge, so vertex 2 cannot be
reached from vertex 0, yet `ShortestPathHist(g, 2)` returns the two-element sequence
`[0, 2]` with a nil error instead of `ErrNoPath`; its first element is the zero
value of the edge type, which is no edge of vertex 0. -/
theorem shortestPathHist_orphan :
    (¬ ∃ q : List Int, IsPath (orphanGraph.plain ()) 2 0 q 2) ∧
      ShortestPathHist orphanGraph 2 = some ([0, 2], none) ∧
      (0 : Int) ∉ edgesOf (orphanGraph.plain ()) 0 ∧
      ShortestPath (orphanGraph.plain ()) 2 = some ([], some Err.ErrNoPath) := by
  refine ⟨?_, by decide, by decide, by decide⟩
  rintro ⟨q, hq⟩
  cases hq with
  | cons he _ _ _ =>
    have hnil : edgesOf (orphanGraph.plain ()) 0 = [] := by decide
    rw [hnil] at he
    cases he

/-! ## Tie-breaking in ShortestPath -/

theorem sweep_first_candidate (g : Graph E) (n w : Nat) (hw : 0 < w) (hwn : w ≤ n)
    (hr : (infoAt (sweep g n) w).reached = true) :
    ∃ v i : Nat, (infoAt (sweep g n) w).frm = (v : Int) ∧ v < w ∧
      (infoAt (sweep g n) v).reached = true ∧
      (edgesOf g v)[i]? = some (infoAt (sweep g n) w).via ∧
      g.To v (infoAt (sweep g n) w).via = (w : Int) ∧
      (infoAt (sweep g n) w).shortest =
        (infoAt (sweep g n) v).shortest + g.Length v (infoAt (sweep g n) w).via ∧
      ∀ (v' i' : Nat) (e' : E), (infoAt (sweep g n) v').reached = true →
        (edgesOf g v')[i']? = some e' → g.To v' e' = (w : Int) → v' < w →
        (infoAt (sweep g n) w).shortest ≤ (infoAt (sweep g n) v').shortest + g.Length v' e' ∧
          ((infoAt (sweep g n) v').shortest + g.Length v' e' = (infoAt (sweep g n) w).shortest →
            v < v' ∨ (v = v' ∧ i ≤ i')) := by
  have hinv := sweepInv_sweep g n
  obtain ⟨v, i, h1, _, h3, h4, h5, h6, h7, h8⟩ := hinv.back w hw hwn hr
  refine ⟨v, i, h1, h3, h4, h5, h6, h7, ?_⟩
  intro v' i' e' hr' he' hto hv'
  have hrel := hinv.relaxed v' i' e' (Or.inl (by omega)) hr' he' (by rw [hto]; omega)
    (by rw [hto]; omega)
  rw [hto] at hrel
  simp only [Int.toNat_ofNat] at hrel
  refine ⟨hrel.2, fun heq => ?_⟩
  by_contra hcon
  have hearlier : Earlier v' i' v i := by
    unfold Earlier
    omega
  have := h8 v' i' e' hearlier hr' he' hto
  omega

theorem shortestPath_twin (g : Graph E) (a b : E) (hab : edgesOf g 0 = [a, b])
    (ha : g.To 0 a = 1) (hb : g.To 0 b = 1) (hl : g.Length 0 a = g.Length 0 b) :
    ShortestPath g 1 = some ([a], none) := by
  unfold edgesOf at hab
  have hsweep : sweep g 1 = [{ shortest := 0, frm := 0, via := default, reached := true },
      { shortest := g.Length 0 a, frm := 0, via := a, reached := true }] := by
    have hd : (default : VertexInfo E) =
        { shortest := 0, frm := 0, via := default, reached := false } := rfl
    simp [sweep, List.range_succ, visit, initInfo, infoAt, hab, relaxEdge, ha, hb, hl, hd]
  simp [ShortestPath, hsweep, infoAt, countSteps, fillPath, lookup]

/-- C10. Tie-break determinism in `ShortestPath`, for a positive target `n`.
(1) In the table the sweep leaves, a reached vertex `w > 0` records a pair
`(v, i)`, the `i`-th edge enumerated at the reached vertex `v < w`, that leads to `w`
and gives `w` its recorded length; every candidate pair `(v', i')` (an enumerated
edge from a reached `v' < w` to `w`) gives a length at least as large, and one that
gives the same length comes no earlier in sweep order: `v < v'`, or `v = v'` and
`i ≤ i'`. (2) The returned path consists of the recorded edges along the
backpointer chain from `n` to 0. (3) For two parallel edges `a`, `b` from 0 to 1 of
equal length enumerated as `[a, b]`, `ShortestPath(g, 1)` returns `[a]`. -/
theorem shortestPath_tieBreak (g : Graph E) (n : Nat) (hn : 0 < n) :
    (∀ w : Nat, 0 < w → w ≤ n → (infoAt (sweep g n) w).reached = true →
      ∃ v i : Nat, (infoAt (sweep g n) w).frm = (v : Int) ∧ v < w ∧
        (infoAt (sweep g n) v).reached = true ∧
        (edgesOf g v)[i]? = some (infoAt (sweep g n) w).via ∧
        g.To v (infoAt (sweep g n) w).via = (w : Int) ∧
        (infoAt (sweep g n) w).shortest =
          (infoAt (sweep g n) v).shortest + g.Length v (infoAt (sweep g n) w).via ∧
        ∀ (v' i' : Nat) (e' : E), (infoAt (sweep g n) v').reached = true →
          (edgesOf g v')[i']? = some e' → g.To v' e' = (w : Int) → v' < w →
          (infoAt (sweep g n) w).shortest ≤
              (infoAt (sweep g n) v').shortest + g.Length v' e' ∧
            ((infoAt (sweep g n) v').shortest + g.Length v' e' =
                (infoAt (sweep g n) w).shortest →
              v < v' ∨ (v = v' ∧ i ≤ i'))) ∧
      (∀ p : List E, ShortestPath g (n : Int) = some (p, none) →
        ∃ vs : List Int, vs.length = p.length + 1 ∧ vs[0]? = some 0 ∧
          vs[p.length]? = some (n : Int) ∧ IsRecorded (sweep g n) vs p) ∧
      (∀ a b : E, edgesOf g 0 = [a, b] → g.To 0 a = 1 → g.To 0 b = 1 →
        g.Length 0 a = g.Length 0 b → ShortestPath g 1 = some ([a], none)) := by
  refine ⟨fun w hw hwn hr => sweep_first_candidate g n w hw hwn hr, ?_,
    fun a b hab ha hb hl => shortestPath_twin g a b hab ha hb hl⟩
  intro p hp
  rcases shortestPath_cases g (n : Int) (by omega) with ⟨_, h2⟩ | ⟨_, p', h2, _, _, h5⟩
  · rw [h2] at hp; cases hp
  · rw [h2] at hp
    cases hp
    simpa only [Int.toNat_ofNat] using h5

theorem shortestPath_tieBreak_witness : ShortestPath twinGraph 1 = some ([true], none) :=
  (shortestPath_tieBreak twinGraph 1 (by decide)).2.2 true false (by decide) (by decide)
    (by decide) (by decide)

/-! ## Binary search and placement in the open set of ShortestPathDyn -/

variable {V : Type} [Beforer V]

theorem searchLoop_spec (f : Nat → Bool) (n : Nat)
    (hmono : ∀ a b : Nat, a ≤ b → b < n → f a = true → f b = true) :
    ∀ fuel i j : Nat, i ≤ j → j ≤ n → j - i ≤ fuel → (∀ k, k < i → f k = false) →
      (∀ k, j ≤ k → k < n → f k = true) →
      searchLoop f fuel i j ≤ n ∧ (∀ k, k < searchLoop f fuel i j → f k = false) ∧
        (∀ k, searchLoop f fuel i j ≤ k → k < n → f k = true) := by
  intro fuel
  induction fuel with
  | zero =>
    intro i j hij hjn hfuel hlo hhi
    have : i = j := by omega
    subst this
    exact ⟨hjn, hlo, hhi⟩
  | succ fuel ih =>
    intro i j hij hjn hfuel hlo hhi
    unfold searchLoop
    by_cases hlt : i < j
    · simp only [hlt, if_true]
      have hh1 : i ≤ (i + j) / 2 := by omega
      have hh2 : (i + j) / 2 < j := by omega
      cases hf : f ((i + j) / 2) with
      | false =>
        simp only [Bool.not_false, if_true]
        refine ih _ _ (by omega) hjn (by omega) ?_ hhi
        intro k hk
        cases hfk : f k with
        | false => rfl
        | true =>
          have := hmono k ((i + j) / 2) (by omega) (by omega) hfk
          rw [hf] at this
          cases this
      | true =>
        simp only [Bool.not_true, Bool.false_eq_true, if_false]
        refine ih _ _ hh1 (by omega) (by omega) hlo ?_
        intro k hk hkn
        exact hmono _ _ hk hkn hf
    · simp only [hlt, if_false]
      have : i = j := by omega
      subst this
      exact ⟨hjn, hlo, hhi⟩

theorem sortSearch_spec (f : Nat → Bool) (n : Nat)
    (hmono : ∀ a b : Nat, a ≤ b → b < n → f a = true → f b = true) :
    sortSearch n f ≤ n ∧ (∀ k, k < sortSearch n f → f k = false) ∧
      (∀ k, sortSearch n f ≤ k → k < n → f k = true) :=
  searchLoop_spec f n hmono n 0 n (Nat.zero_le n) (le_refl n) (by omega)
    (fun k hk => absurd hk (by omega)) (fun k hk hkn => absurd hkn (by omega))

theorem placeDyn_cons_succ (r : DynInfo V E) (rest : List (DynInfo V E)) (k : Nat) (w : V)
    (nl : Int) (cur : DynInfo V E) (e : E) :
    placeDyn (r :: rest) (k + 1) w nl cur e = r :: placeDyn rest k w nl cur e := by
  unfold placeDyn
  simp only [List.get?_cons_succ]
  cases rest.get? k with
  | none => simp
  | some r' =>
    simp only [List.take_succ_cons, List.drop_succ_cons, List.cons_append, List.set_cons_succ]
    split
    · rfl
    · split <;> rfl

theorem placeDyn_eq_insertSorted (w : V) (nl : Int) (cur : DynInfo V E) (e : E) :
    ∀ (info : List (DynInfo V E)) (idx : Nat),
      (∀ k r, k < idx → info.get? k = some r → Before r.v w = true) →
      (∀ r, info.get? idx = some r → Before r.v w = false) → idx ≤ info.length →
      placeDyn info idx w nl cur e = insertSorted w nl cur e info := by
  intro info
  induction info with
  | nil =>
    intro idx _ _ _
    simp [placeDyn, insertSorted]
  | cons r rest ih =>
    intro idx hL hR hidx
    cases idx with
    | zero =>
      have hr : Before r.v w = false := hR r rfl
      simp [placeDyn, insertSorted, hr]
    | succ k =>
      have hr : Before r.v w = true := hL 0 r (by omega) rfl
      rw [placeDyn_cons_succ, insertSorted, if_pos hr]
      congr 1
      refine ih k ?_ ?_ (by simpa using hidx)
      · intro k' r' hk' hget
        exact hL (k' + 1) r' (by omega) (by simpa using hget)
      · intro r' hget
        exact hR r' (by simpa using hget)


/-! ## Sorted insertion -/

theorem insertSorted_mem (hst : StrictTotal V) (w : V) (nl : Int) (cur : DynInfo V E) (e : E) :
    ∀ (info : List (DynInfo V E)) (r : DynInfo V E), r ∈ insertSorted w nl cur e info →
      r ∈ info ∨ r = freshInfo w nl cur e := by
  intro info
  induction info with
  | nil =>
    intro r hr
    simp only [insertSorted, List.mem_singleton] at hr
    exact Or.inr hr
  | cons a rest ih =>
    intro r hr
    unfold insertSorted at hr
    split at hr
    · rcases List.mem_cons.1 hr with h | h
      · exact Or.inl (h ▸ List.mem_cons_self _ _)
      · rcases ih r h with h' | h'
        · exact Or.inl (List.mem_cons_of_mem _ h')
        · exact Or.inr h'
    · rename_i h1
      split at hr
      · rcases List.mem_cons.1 hr with h | h
        · exact Or.inr h
        · exact Or.inl h
      · rename_i h2
        have haw : a.v = w := by
          rcases hst.total a.v w with h | h | h
          · exact absurd h h1
          · exact h
          · exact absurd h h2
        split at hr
        · rcases List.mem_cons.1 hr with h | h
          · right
            rw [h]
            simp [freshInfo, haw]
          · exact Or.inl (List.mem_cons_of_mem _ h)
        · exact Or.inl hr

theorem insertSorted_sorted (hst : StrictTotal V) (w : V) (nl : Int) (cur : DynInfo V E)
    (e : E) : ∀ info : List (DynInfo V E), SortedInfo info →
      SortedInfo (insertSorted w nl cur e info) := by
  intro info
  induction info with
  | nil =>
    intro _
    simp [insertSorted, SortedInfo]
  | cons a rest ih =>
    intro hs
    unfold SortedInfo at hs
    rw [List.pairwise_cons] at hs
    unfold insertSorted
    split
    · rename_i h1
      unfold SortedInfo
      rw [List.pairwise_cons]
      refine ⟨?_, ih hs.2⟩
      intro r hr
      rcases insertSorted_mem hst w nl cur e rest r hr with h | h
      · exact hs.1 r h
      · rw [h]; exact h1
    · rename_i h1
      split
      · rename_i h2
        unfold SortedInfo
        rw [List.pairwise_cons, List.pairwise_cons]
        refine ⟨?_, hs⟩
        intro r hr
        rcases List.mem_cons.1 hr with h | h
        · rw [h]; exact h2
        · exact hst.trans _ _ _ h2 (hs.1 r h)
      · split
        · unfold SortedInfo
          rw [List.pairwise_cons]
          exact hs
        · unfold SortedInfo
          rw [List.pairwise_cons]
          exact hs

theorem insertSorted_mono (w : V) (nl : Int) (cur : DynInfo V E) (e : E) :
    ∀ (info : List (DynInfo V E)) (r : DynInfo V E), r ∈ info →
      ∃ r' ∈ insertSorted w nl cur e info, r'.v = r.v ∧ r'.shortest ≤ r.shortest := by
  intro info
  induction info with
  | nil => intro r hr; cases hr
  | cons a rest ih =>
    intro r hr
    unfold insertSorted
    split
    · rcases List.mem_cons.1 hr with h | h
      · exact ⟨a, List.mem_cons_self _ _, by rw [h], by rw [h]⟩
      · obtain ⟨r', h1, h2, h3⟩ := ih r h
        exact ⟨r', List.mem_cons_of_mem _ h1, h2, h3⟩
    · split
      · exact ⟨r, List.mem_cons_of_mem _ hr, rfl, le_refl _⟩
      · split
        · rename_i h3
          rcases List.mem_cons.1 hr with h | h
          · refine ⟨_, List.mem_cons_self _ _, by rw [h], ?_⟩
            rw [h]
            exact le_of_lt h3
          · exact ⟨r, List.mem_cons_of_mem _ h, rfl, le_refl _⟩
        · exact ⟨r, hr, rfl, le_refl _⟩

theorem insertSorted_found (hst : StrictTotal V) (w : V) (nl : Int) (cur : DynInfo V E)
    (e : E) : ∀ info : List (DynInfo V E),
      ∃ r' ∈ insertSorted w nl cur e info, r'.v = w ∧ r'.shortest ≤ nl := by
  intro info
  induction info with
  | nil => exact ⟨_, List.mem_singleton.2 rfl, rfl, le_refl _⟩
  | cons a rest ih =>
    unfold insertSorted
    split
    · obtain ⟨r', h1, h2, h3⟩ := ih
      exact ⟨r', List.mem_cons_of_mem _ h1, h2, h3⟩
    · rename_i h1
      split
      · exact ⟨_, List.mem_cons_self _ _, rfl, le_refl _⟩
      · rename_i h2
        have haw : a.v = w := by
          rcases hst.total a.v w with h | h | h
          · exact absurd h h1
          · exact h
          · exact absurd h h2
        split
        · exact ⟨_, List.mem_cons_self _ _, haw, le_refl _⟩
        · rename_i h3
          exact ⟨a, List.mem_cons_self _ _, haw, not_lt.1 h3⟩

/-! ## One relaxation of ShortestPathDyn -/

theorem searchPred_some {info : List (DynInfo V E)} {w : V} {i : Nat} {r : DynInfo V E}
    (h : info.get? i = some r) : searchPred info w i = !Before r.v w := by
  unfold searchPred
  rw [h]

theorem search_pred_mono (htrans : ∀ a b c : V, Before a b = true → Before b c = true →
    Before a c = true) (info : List (DynInfo V E)) (hs : SortedInfo info) (w : V) :
    ∀ a b : Nat, a ≤ b → b < info.length →
      searchPred info w a = true → searchPred info w b = true := by
  intro a b hab hb ha
  unfold searchPred at ha ⊢
  rcases Nat.eq_or_lt_of_le hab with rfl | hlt
  · exact ha
  · have hal : a < info.length := by omega
    have hrel := (List.pairwise_iff_getElem.1 hs) a b hal hb hlt
    simp only [List.get?_eq_getElem?, List.getElem?_eq_getElem hal,
      List.getElem?_eq_getElem hb] at ha ⊢
    cases hbw : Before info[b].v w with
    | false => rfl
    | true =>
      have := htrans _ _ _ hrel hbw
      rw [this] at ha
      cases ha

theorem relaxDyn_eq (htrans : ∀ a b c : V, Before a b = true → Before b c = true →
    Before a c = true) (g : DynamicGraph V E) (endv : V) (cur : DynInfo V E)
    (s : DynState V E) (e : E) (hs : SortedInfo s.info)
    (hfw : Before (g.To cur.v e) cur.v = false) :
    relaxDyn g endv cur s e =
      { info := insertSorted (g.To cur.v e) (cur.shortest + g.Length cur.v e) cur e s.info,
        arrived := if Before (g.To cur.v e) endv then s.arrived else true,
        bestLength :=
          if Before (g.To cur.v e) endv then s.bestLength
          else if s.arrived = false ∨ cur.shortest + g.Length cur.v e < s.bestLength then
            cur.shortest + g.Length cur.v e
          else s.bestLength } := by
  have key : ∀ info : List (DynInfo V E), SortedInfo info →
      placeDyn info
        (sortSearch info.length (searchPred info (g.To cur.v e)))
        (g.To cur.v e) (cur.shortest + g.Length cur.v e) cur e =
      insertSorted (g.To cur.v e) (cur.shortest + g.Length cur.v e) cur e info := by
    intro info hsi
    obtain ⟨h1, h2, h3⟩ := sortSearch_spec _ info.length
      (search_pred_mono htrans info hsi (g.To cur.v e))
    apply placeDyn_eq_insertSorted _ _ _ _ _ _ _ _ h1
    · intro k r hk hget
      have := h2 k hk
      rw [searchPred_some hget] at this
      simpa using this
    · intro r hget
      have hlt : sortSearch info.length (searchPred info (g.To cur.v e)) < info.length := by
        by_contra hcon
        rw [List.get?_eq_none.2 (by omega)] at hget
        cases hget
      have := h3 _ (le_refl _) hlt
      rw [searchPred_some hget] at this
      simpa using this
  unfold relaxDyn
  simp only [hfw, Bool.false_eq_true, if_false]
  cases hend : Before (g.To cur.v e) endv with
  | true =>
    simp only [Bool.not_true, Bool.false_eq_true, if_false, if_true]
    rw [key s.info hs]
  | false =>
    simp only [Bool.not_false, if_true, Bool.false_eq_true, if_false]
    rw [key s.info hs]
    congr 1
    simp [Bool.or_eq_true]

/-! ## Relaxing the edges of a popped record -/

theorem StrictTotal.asymm (hst : StrictTotal V) {a b : V} (h : Before a b = true) :
    Before b a = false := by
  cases hba : Before b a with
  | false => rfl
  | true =>
    have := hst.trans a b a h hba
    rw [hst.irrefl a] at this
    cases this

theorem relaxed_refl (g : DynamicGraph V E) (endv : V) (cur : DynInfo V E)
    (s : DynState V E) (hs : SortedInfo s.info) : Relaxed g endv cur [] s s where
  sorted := hs
  fresh := fun _ hr => Or.inl hr
  mono := fun r hr => ⟨r, hr, rfl, le_refl _⟩
  found := fun e he => absurd he (List.not_mem_nil e)
  arrived := fun h => ⟨h, le_refl _⟩
  best := fun h => h

theorem relaxed_one (hst : StrictTotal V) (g : DynamicGraph V E) (endv : V)
    (cur : DynInfo V E) (s : DynState V E) (e : E) (hs : SortedInfo s.info)
    (hfw : Before cur.v (g.To cur.v e) = true) :
    Relaxed g endv cur [e] s (relaxDyn g endv cur s e) := by
  rw [relaxDyn_eq hst.trans g endv cur s e hs (hst.asymm hfw)]
  constructor
  · exact insertSorted_sorted hst _ _ _ _ _ hs
  · intro r' hr'
    rcases insertSorted_mem hst _ _ _ _ _ r' hr' with h | h
    · exact Or.inl h
    · exact Or.inr ⟨e, List.mem_singleton.2 rfl, h⟩
  · intro r hr
    exact insertSorted_mono _ _ _ _ _ r hr
  · intro e' he'
    rw [List.mem_singleton.1 he']
    exact insertSorted_found hst _ _ _ _ _
  · intro ha
    simp only [ha, Bool.true_eq_false, false_or]
    refine ⟨by split <;> rfl, ?_⟩
    split
    · exact le_refl _
    · split
      · rename_i h; exact le_of_lt h
      · exact le_refl _
  · intro hbest _
    simp only
    cases hend : Before (g.To cur.v e) endv with
    | true =>
      simp only [if_true]
      simp only [hend, if_true] at *
      rename_i ha
      obtain ⟨r, hr1, hr2, hr3⟩ := hbest ha
      obtain ⟨r', h1, h2, h3⟩ := insertSorted_mono (g.To cur.v e)
        (cur.shortest + g.Length cur.v e) cur e _ r hr1
      exact ⟨r', h1, by rw [h2]; exact hr2, le_trans h3 hr3⟩
    | false =>
      simp only [Bool.false_eq_true, if_false]
      split
      · obtain ⟨r', h1, h2, h3⟩ := insertSorted_found hst (g.To cur.v e)
          (cur.shortest + g.Length cur.v e) cur e s.info
        exact ⟨r', h1, by rw [h2]; exact hend, h3⟩
      · rename_i hno
        push_neg at hno
        have ha : s.arrived = true := by simpa using hno.1
        obtain ⟨r, hr1, hr2, hr3⟩ := hbest ha
        obtain ⟨r', h1, h2, h3⟩ := insertSorted_mono (g.To cur.v e)
          (cur.shortest + g.Length cur.v e) cur e _ r hr1
        exact ⟨r', h1, by rw [h2]; exact hr2, le_trans h3 hr3⟩

theorem relaxed_trans {g : DynamicGraph V E} {endv : V} {cur : DynInfo V E}
    {l1 l2 : List E} {s1 s2 s3 : DynState V E}
    (h12 : Relaxed g endv cur l1 s1 s2) (h23 : Relaxed g endv cur l2 s2 s3) :
    Relaxed g endv cur (l1 ++ l2) s1 s3 where
  sorted := h23.sorted
  fresh := by
    intro r hr
    rcases h23.fresh r hr with h | ⟨e, he, h⟩
    · rcases h12.fresh r h with h' | ⟨e, he, h'⟩
      · exact Or.inl h'
      · exact Or.inr ⟨e, List.mem_append_left _ he, h'⟩
    · exact Or.inr ⟨e, List.mem_append_right _ he, h⟩
  mono := by
    intro r hr
    obtain ⟨r2, h1, h2, h3⟩ := h12.mono r hr
    obtain ⟨r3, h4, h5, h6⟩ := h23.mono r2 h1
    exact ⟨r3, h4, by rw [h5, h2], le_trans h6 h3⟩
  found := by
    intro e he
    rcases List.mem_append.1 he with h | h
    · obtain ⟨r2, h1, h2, h3⟩ := h12.found e h
      obtain ⟨r3, h4, h5, h6⟩ := h23.mono r2 h1
      exact ⟨r3, h4, by rw [h5, h2], le_trans h6 h3⟩
    · exact h23.found e h
  arrived := by
    intro ha
    obtain ⟨h1, h2⟩ := h12.arrived ha
    obtain ⟨h3, h4⟩ := h23.arrived h1
    exact ⟨h3, le_trans h4 h2⟩
  best := fun hb => h23.best (h12.best hb)

theorem relaxed_foldl (hst : StrictTotal V) (g : DynamicGraph V E) (endv : V)
    (cur : DynInfo V E) :
    ∀ (edges : List E) (s : DynState V E), SortedInfo s.info →
      (∀ e ∈ edges, Before cur.v (g.To cur.v e) = true) →
      Relaxed g endv cur edges s (edges.foldl (relaxDyn g endv cur) s) := by
  intro edges
  induction edges with
  | nil => intro s hs _; exact relaxed_refl g endv cur s hs
  | cons e rest ih =>
    intro s hs hfw
    have h1 := relaxed_one hst g endv cur s e hs (hfw e (List.mem_cons_self _ _))
    have h2 := ih (relaxDyn g endv cur s e) h1.sorted
      (fun e' he' => hfw e' (List.mem_cons_of_mem _ he'))
    exact relaxed_trans h1 h2

/-! ## One pass of the main loop of ShortestPathDyn -/

theorem dist_restrict (hst : StrictTotal V) {g : DynamicGraph V E} (hfw : Forward g)
    {start m : V} {ps : List V} {u : V} {L : Int}
    (h : Dist g (fun x => x ∈ m :: ps) start u L) (hu : Before m u = false) :
    Dist g (fun x => x ∈ ps) start u L := by
  induction h with
  | nil => exact Dist.nil
  | @snoc v L e hd hv he ih =>
    have hvu := hfw v e he
    have hvm : v ≠ m := by
      rintro rfl
      rw [hvu] at hu
      cases hu
    have hv' : v ∈ ps := by
      rcases List.mem_cons.1 hv with h | h
      · exact absurd h hvm
      · exact h
    have hmv : Before m v = false := by
      cases hmv : Before m v with
      | false => rfl
      | true =>
        have := hst.trans m v _ hmv hvu
        rw [this] at hu
        cases hu
    exact Dist.snoc (ih hmv) hv' he

theorem dynInv_next (hst : StrictTotal V) {prune : Bool} {g : DynamicGraph V E}
    (hfw : Forward g) {start endv : V} {ps : List V}
    {s s' : DynState V E} {cur : DynInfo V E} {rest : List (DynInfo V E)} {edges : List E}
    (h : DynInv prune g start endv ps s) (hinfo : s.info = cur :: rest)
    (hcur : Before cur.v endv = true)
    (hrel : Relaxed g endv cur edges { s with info := rest } s')
    (hedges : ∀ e ∈ edges, e ∈ dynEdges g cur.v)
    (hcases : (prune = true ∧ s.arrived = true ∧ s.bestLength ≤ cur.shortest) ∨
      edges = dynEdges g cur.v) :
    DynInv prune g start endv (cur.v :: ps) s' := by
  have hsorted := h.sorted
  rw [hinfo] at hsorted
  unfold SortedInfo at hsorted
  rw [List.pairwise_cons] at hsorted
  have hcurmem : cur ∈ s.info := by rw [hinfo]; exact List.mem_cons_self _ _
  have hrestmem : ∀ r ∈ rest, r ∈ s.info := by
    intro r hr; rw [hinfo]; exact List.mem_cons_of_mem _ hr
  have hm : cur.v ∉ ps := by
    intro hmem
    have := (h.closed cur.v hmem).2 cur hcurmem
    rw [hst.irrefl] at this
    cases this
  have hnew : ∀ r' ∈ s'.info, Before cur.v r'.v = true ∧ GoodPtr g start endv r'.ptr := by
    intro r' hr'
    rcases hrel.fresh r' hr' with hr | ⟨e, he, hr⟩
    · exact ⟨hsorted.1 r' hr, h.good r' (hrestmem r' hr)⟩
    · rw [hr]
      refine ⟨hfw cur.v e (hedges e he), ?_⟩
      exact GoodPtr.step (h.good cur hcurmem) hcur (hedges e he)
  -- a record of the old open set other than the popped one survives, no longer than before
  have hkeep : ∀ (u : V) (L : Int), u ≠ cur.v →
      ((∃ r ∈ s.info, r.v = u ∧ ((prune = true → NonNeg g) → r.shortest ≤ L)) ∨
        (prune = true ∧ s.arrived = true ∧ (NonNeg g → s.bestLength ≤ L))) →
      ((∃ r ∈ s'.info, r.v = u ∧ ((prune = true → NonNeg g) → r.shortest ≤ L)) ∨
        (prune = true ∧ s'.arrived = true ∧ (NonNeg g → s'.bestLength ≤ L))) := by
    intro u L hu hold
    rcases hold with ⟨r, hr1, hr2, hr3⟩ | ⟨hp, ha, hb⟩
    · left
      rw [hinfo] at hr1
      rcases List.mem_cons.1 hr1 with heq | hr
      · rw [heq] at hr2; exact absurd hr2.symm hu
      · obtain ⟨r', h1, h2, h3⟩ := hrel.mono r hr
        exact ⟨r', h1, by rw [h2, hr2], fun hc => le_trans h3 (hr3 hc)⟩
    · right
      obtain ⟨h1, h2⟩ := hrel.arrived ha
      exact ⟨hp, h1, fun hc => le_trans h2 (hb hc)⟩
  constructor
  · exact hrel.sorted
  · exact fun r hr => (hnew r hr).2
  · exact List.nodup_cons.2 ⟨hm, h.nodup⟩
  · intro x hx
    rcases List.mem_cons.1 hx with rfl | hx
    · exact ⟨hcur, fun r hr => (hnew r hr).1⟩
    · refine ⟨(h.closed x hx).1, fun r hr => ?_⟩
      exact hst.trans _ _ _ ((h.closed x hx).2 cur hcurmem) (hnew r hr).1
  · intro u L hd hu
    have hu1 : u ≠ cur.v := fun heq => hu (heq ▸ List.mem_cons_self _ _)
    have hu2 : u ∉ ps := fun hmem => hu (List.mem_cons_of_mem _ hmem)
    cases hd with
    | nil => exact hkeep _ _ hu1 (h.complete _ _ Dist.nil hu2)
    | @snoc v L' e hd' hv he =>
      have hmv : Before cur.v v = false := by
        rcases List.mem_cons.1 hv with rfl | hv'
        · exact hst.irrefl _
        · exact hst.asymm ((h.closed v hv').2 cur hcurmem)
      have hd'' := dist_restrict hst hfw hd' hmv
      rcases List.mem_cons.1 hv with rfl | hv'
      · -- the last edge leaves the popped vertex
        have hold := h.complete _ _ hd'' hm
        have hbound : (prune = true ∧ s.arrived = true ∧ (NonNeg g → s.bestLength ≤ L')) →
            (∃ r ∈ s'.info, r.v = g.To cur.v e ∧
                ((prune = true → NonNeg g) → r.shortest ≤ L' + g.Length cur.v e)) ∨
              (prune = true ∧ s'.arrived = true ∧
                (NonNeg g → s'.bestLength ≤ L' + g.Length cur.v e)) := by
          rintro ⟨hp, ha, hb⟩
          right
          obtain ⟨h1, h2⟩ := hrel.arrived ha
          refine ⟨hp, h1, fun hnn => ?_⟩
          have := hnn cur.v e he
          have := hb hnn
          linarith
        have hcurL : (∃ r ∈ s.info, r.v = cur.v ∧ ((prune = true → NonNeg g) → r.shortest ≤ L')) →
            (prune = true → NonNeg g) → cur.shortest ≤ L' := by
          rintro ⟨r, hr1, hr2, hr3⟩ hc
          rw [hinfo] at hr1
          rcases List.mem_cons.1 hr1 with heq | hr
          · rw [← heq]; exact hr3 hc
          · have := hsorted.1 r hr
            rw [hr2, hst.irrefl] at this
            cases this
        rcases hold with hrec | hb
        · have hle := hcurL hrec
          rcases hcases with ⟨hp, ha, hb⟩ | hall
          · exact hbound ⟨hp, ha, fun hnn => le_trans hb (hle (fun _ => hnn))⟩
          · left
            obtain ⟨r', h1, h2, h3⟩ := hrel.found e (by rw [hall]; exact he)
            refine ⟨r', h1, h2, fun hc => ?_⟩
            have := hle hc
            linarith
        · exact hbound hb
      · exact hkeep _ _ hu1 (h.complete _ _ (Dist.snoc hd'' hv' he) hu2)
  · refine hrel.best ?_
    intro ha
    obtain ⟨r, hr1, hr2, hr3⟩ := h.best ha
    rw [hinfo] at hr1
    rcases List.mem_cons.1 hr1 with heq | hr
    · rw [heq, hcur] at hr2; cases hr2
    · exact ⟨r, hr, hr2, hr3⟩

/-! ## The main loop of ShortestPathDyn -/

theorem dynLoop_pass (hst : StrictTotal V) {prune : Bool} {g : DynamicGraph V E}
    (hfw : Forward g) {start endv : V} {ps : List V}
    {s : DynState V E} {cur : DynInfo V E} {rest : List (DynInfo V E)}
    (h : DynInv prune g start endv ps s) (hinfo : s.info = cur :: rest)
    (hcur : Before cur.v endv = true) :
    ∃ s1 : DynState V E,
      (∀ fuel : Nat, dynLoop prune g endv (fuel + 1) s = dynLoop prune g endv fuel s1) ∧
        DynInv prune g start endv (cur.v :: ps) s1 := by
  have hsorted := h.sorted
  rw [hinfo] at hsorted
  unfold SortedInfo at hsorted
  rw [List.pairwise_cons] at hsorted
  by_cases hp : (prune && s.arrived && decide (cur.shortest ≥ s.bestLength)) = true
  · refine ⟨{ s with info := rest }, ?_, ?_⟩
    · intro fuel
      rw [dynLoop]
      simp only [hinfo, hcur, if_true, hp]
    · simp only [Bool.and_eq_true, decide_eq_true_eq] at hp
      exact dynInv_next hst hfw h hinfo hcur
        (relaxed_refl g endv cur { s with info := rest } hsorted.2)
        (fun e he => absurd he (List.not_mem_nil e)) (Or.inl ⟨hp.1.1, hp.1.2, hp.2⟩)
  · refine ⟨(dynEdges g cur.v).foldl (relaxDyn g endv cur) { s with info := rest }, ?_, ?_⟩
    · intro fuel
      rw [dynLoop]
      simp only [hinfo, hcur, if_true, hp]
      rfl
    · exact dynInv_next hst hfw h hinfo hcur
        (relaxed_foldl hst g endv cur (dynEdges g cur.v) { s with info := rest } hsorted.2
          (fun e he => hfw cur.v e he))
        (fun e he => he) (Or.inr rfl)

/-- The loop has stopped: the open set is empty or its first vertex is not before
`endv`. -/
theorem dynLoop_inv (hst : StrictTotal V) {prune : Bool} {g : DynamicGraph V E}
    (hfw : Forward g) {start endv : V} :
    ∀ (fuel : Nat) (ps : List V) (s s' : DynState V E),
      DynInv prune g start endv ps s → dynLoop prune g endv fuel s = some s' →
      ∃ ps' : List V, DynInv prune g start endv ps' s' ∧
        ∀ r ∈ s'.info.head?, Before r.v endv = false := by
  intro fuel
  induction fuel with
  | zero =>
    intro ps s s' h hloop
    rw [dynLoop] at hloop
    cases hinfo : s.info with
    | nil =>
      simp only [hinfo] at hloop
      cases hloop
      exact ⟨ps, h, by simp [hinfo]⟩
    | cons cur rest =>
      simp only [hinfo] at hloop
      cases hcur : Before cur.v endv with
      | true => simp [hcur] at hloop
      | false =>
        simp only [hcur, Bool.false_eq_true, if_false] at hloop
        cases hloop
        exact ⟨ps, h, by simp [hinfo, hcur]⟩
  | succ fuel ih =>
    intro ps s s' h hloop
    cases hinfo : s.info with
    | nil =>
      rw [dynLoop] at hloop
      simp only [hinfo] at hloop
      cases hloop
      exact ⟨ps, h, by simp [hinfo]⟩
    | cons cur rest =>
      cases hcur : Before cur.v endv with
      | true =>
        obtain ⟨s1, h1, h2⟩ := dynLoop_pass hst hfw h hinfo hcur
        rw [h1 fuel] at hloop
        exact ih _ s1 s' h2 hloop
      | false =>
        rw [dynLoop] at hloop
        simp only [hinfo, hcur, Bool.false_eq_true, if_false] at hloop
        cases hloop
        exact ⟨ps, h, by simp [hinfo, hcur]⟩

theorem dynLoop_terminates (hst : StrictTotal V) {prune : Bool} {g : DynamicGraph V E}
    (hfw : Forward g) {start endv : V} (N : Nat)
    (hN : ∀ qs : List V, qs.Nodup → qs.length ≤ N) :
    ∀ (fuel : Nat) (ps : List V) (s : DynState V E),
      DynInv prune g start endv ps s → N ≤ fuel + ps.length →
      ∃ s' : DynState V E, dynLoop prune g endv fuel s = some s' := by
  intro fuel
  induction fuel with
  | zero =>
    intro ps s h hfuel
    rw [dynLoop]
    cases hinfo : s.info with
    | nil => exact ⟨s, rfl⟩
    | cons cur rest =>
      cases hcur : Before cur.v endv with
      | true =>
        exfalso
        obtain ⟨s1, _, h2⟩ := dynLoop_pass hst hfw h hinfo hcur
        have := hN _ h2.nodup
        simp only [List.length_cons] at this
        omega
      | false => exact ⟨s, by simp [hcur]⟩
  | succ fuel ih =>
    intro ps s h hfuel
    cases hinfo : s.info with
    | nil =>
      rw [dynLoop]
      exact ⟨s, by simp [hinfo]⟩
    | cons cur rest =>
      cases hcur : Before cur.v endv with
      | true =>
        obtain ⟨s1, h1, h2⟩ := dynLoop_pass hst hfw h hinfo hcur
        rw [h1 fuel]
        exact ih _ s1 h2 (by simp only [List.length_cons]; omega)
      | false =>
        rw [dynLoop]
        exact ⟨s, by simp [hinfo, hcur]⟩

/-! ## After the main loop of ShortestPathDyn -/

theorem dynInv_init (prune : Bool) (g : DynamicGraph V E) (start endv : V) :
    DynInv prune g start endv []
      { info := [{ v := start, shortest := 0, frm := InfoPtr.nil, via := default }],
        arrived := false, bestLength := 0 } where
  sorted := by simp [SortedInfo]
  good := by
    intro r hr
    rw [List.mem_singleton.1 hr]
    exact GoodPtr.root default
  nodup := List.nodup_nil
  closed := fun x hx => absurd hx (List.not_mem_nil x)
  complete := by
    intro u L hd _
    left
    cases hd with
    | nil => exact ⟨_, List.mem_singleton.2 rfl, rfl, fun _ => le_refl _⟩
    | snoc _ hv _ => exact absurd hv (List.not_mem_nil _)
  best := fun h => by cases h

theorem scanBest_spec (all : List (DynInfo V E)) :
    ∀ (rest pre : List (DynInfo V E)) (rb : DynInfo V E) (bestIdx : Nat),
      all = pre ++ rest → all.get? bestIdx = some rb →
      (∀ r' ∈ pre, rb.shortest ≤ r'.shortest) →
      ∃ r : DynInfo V E, all.get? (scanBest rest pre.length bestIdx rb.shortest) = some r ∧
        ∀ r' ∈ all, r.shortest ≤ r'.shortest := by
  intro rest
  induction rest with
  | nil =>
    intro pre rb bestIdx hall hget hpre
    simp only [List.append_nil] at hall
    exact ⟨rb, hget, by rw [hall]; exact hpre⟩
  | cons a rest ih =>
    intro pre rb bestIdx hall hget hpre
    unfold scanBest
    have hall' : all = (pre ++ [a]) ++ rest := by simp [hall]
    have hlen : (pre ++ [a]).length = pre.length + 1 := by simp
    split
    · rename_i hlt
      have hgeta : all.get? pre.length = some a := by
        rw [hall, List.get?_eq_getElem?, List.getElem?_append_right (le_refl _)]; simp
      have := ih (pre ++ [a]) a pre.length hall' hgeta (by
        intro r' hr'
        rcases List.mem_append.1 hr' with h | h
        · exact le_trans (le_of_lt hlt) (hpre r' h)
        · rw [List.mem_singleton.1 h])
      rwa [hlen] at this
    · rename_i hge
      have := ih (pre ++ [a]) rb bestIdx hall' hget (by
        intro r' hr'
        rcases List.mem_append.1 hr' with h | h
        · exact hpre r' h
        · rw [List.mem_singleton.1 h]; exact not_lt.1 hge)
      rwa [hlen] at this

theorem walkDyn_spec : ∀ (ptr : InfoPtr V E),
    (∀ s : Nat, countStepsDyn ptr s = s + (ptrPath ptr).length) ∧
      ∀ (s : Nat) (path : List E), (ptrPath ptr).length ≤ s → s ≤ path.length →
        fillPathDyn ptr s path =
          some (path.take (s - (ptrPath ptr).length) ++ ptrPath ptr ++ path.drop s) := by
  intro ptr
  induction ptr with
  | nil =>
    refine ⟨fun s => by simp [countStepsDyn, ptrPath], fun s path _ _ => ?_⟩
    simp [fillPathDyn, ptrPath]
  | ref v sh frm via ih =>
    cases frm with
    | nil =>
      refine ⟨fun s => by simp [countStepsDyn, ptrPath], fun s path _ _ => ?_⟩
      simp [fillPathDyn, ptrPath]
    | ref v' sh' frm' via' =>
      obtain ⟨ih1, ih2⟩ := ih
      constructor
      · intro s
        rw [countStepsDyn, ih1, ptrPath]
        simp only [List.length_append, List.length_singleton]
        omega
      · intro s path hs hs'
        rw [ptrPath] at hs ⊢
        simp only [List.length_append, List.length_singleton] at hs ⊢
        have hcond : ¬ (s = 0 ∨ path.length < s) := by omega
        rw [fillPathDyn, if_neg hcond,
          ih2 (s - 1) _ (by omega) (by rw [List.length_set]; omega)]
        congr 1
        have e1 : (path.set (s - 1) via).take (s - 1 - (ptrPath (InfoPtr.ref v' sh' frm' via')).length)
            = path.take (s - ((ptrPath (InfoPtr.ref v' sh' frm' via')).length + 1)) := by
          rw [take_set_le _ _ (by omega)]
          congr 1
          omega
        have e2 : (path.set (s - 1) via).drop (s - 1) = via :: path.drop s := by
          rw [drop_set_self _ _ (by omega)]
          congr 2
          omega
        rw [e1, e2]
        simp

theorem walkDyn_result (ptr : InfoPtr V E) :
    fillPathDyn ptr (countStepsDyn ptr 0) (List.replicate (countStepsDyn ptr 0) default) =
      some (ptrPath ptr) := by
  obtain ⟨h1, h2⟩ := walkDyn_spec ptr
  rw [h1 0, h2 _ _ (by omega) (by simp)]
  simp

/-! ## Paths behind the records of ShortestPathDyn -/

theorem isDynPath_snoc {g : DynamicGraph V E} {u v : V} {p : List E} {e : E}
    (h : IsDynPath g u p v) (he : e ∈ dynEdges g v) :
    IsDynPath g u (p ++ [e]) (g.To v e) := by
  induction h with
  | nil u => exact IsDynPath.cons he (IsDynPath.nil _)
  | cons a _ ih => exact IsDynPath.cons a (ih he)

theorem dynPathLength_snoc {g : DynamicGraph V E} {u v : V} {p : List E} (e : E)
    (h : IsDynPath g u p v) :
    dynPathLength g u (p ++ [e]) = dynPathLength g u p + g.Length v e := by
  induction h with
  | nil u => simp [dynPathLength]
  | cons a _ ih =>
    show g.Length _ _ + dynPathLength g _ (_ ++ [e]) = _
    rw [ih]
    show _ = g.Length _ _ + dynPathLength g _ _ + _
    ring

theorem dynPathLength_nonneg {g : DynamicGraph V E} (hnn : NonNeg g) {u v : V} {p : List E}
    (h : IsDynPath g u p v) : 0 ≤ dynPathLength g u p := by
  induction h with
  | nil u => simp [dynPathLength]
  | @cons u w e p a _ ih =>
    have := hnn u e a
    simp only [dynPathLength]
    omega

/-- The path a well-built record stands for. -/
theorem goodPtr_spec {g : DynamicGraph V E} {start endv : V} {ptr : InfoPtr V E}
    (h : GoodPtr g start endv ptr) :
    ∃ (v : V) (sh : Int) (frm : InfoPtr V E) (via : E), ptr = InfoPtr.ref v sh frm via ∧
      IsDynPath g start (ptrPath ptr) v ∧ dynPathLength g start (ptrPath ptr) = sh ∧
      ∃ vs : List V, vs.length = (ptrPath ptr).length + 1 ∧ vs[0]? = some start ∧
        vs[(ptrPath ptr).length]? = some v ∧
        ∀ i : Nat, i < (ptrPath ptr).length → ∃ (a b : V) (e : E), vs[i]? = some a ∧
          vs[i + 1]? = some b ∧ (ptrPath ptr)[i]? = some e ∧ e ∈ dynEdges g a ∧
          g.To a e = b ∧ Before a endv = true := by
  induction h with
  | root via =>
    refine ⟨start, 0, InfoPtr.nil, via, rfl, IsDynPath.nil _, rfl, [start], rfl, rfl, rfl, ?_⟩
    intro i hi
    simp [ptrPath] at hi
  | @step v' sh' frm' via' e _ hb he ih =>
    obtain ⟨v0, sh0, frm0, via0, heq, hp, hl, vs, hv1, hv2, hv3, hv4⟩ := ih
    cases heq
    have hpp : ptrPath (InfoPtr.ref (g.To v' e) (sh' + g.Length v' e)
        (InfoPtr.ref v' sh' frm' via') e) = ptrPath (InfoPtr.ref v' sh' frm' via') ++ [e] := by
      rw [ptrPath]
    rw [hpp]
    generalize ptrPath (InfoPtr.ref v' sh' frm' via') = p at *
    refine ⟨_, _, _, _, rfl, isDynPath_snoc hp he, ?_, vs ++ [g.To v' e], by simp [hv1], ?_, ?_, ?_⟩
    · rw [dynPathLength_snoc e hp, hl]
    · rw [List.getElem?_append_left (by omega)]; exact hv2
    · rw [List.length_append, List.length_singleton, List.getElem?_append_right (by omega)]
      simp [hv1]
    · intro i hi
      simp only [List.length_append, List.length_singleton] at hi
      by_cases hip : i < p.length
      · obtain ⟨a, b, e', h1, h2, h3, h4, h5, h6⟩ := hv4 i hip
        refine ⟨a, b, e', ?_, ?_, ?_, h4, h5, h6⟩
        · rw [List.getElem?_append_left (by omega)]; exact h1
        · rw [List.getElem?_append_left (by omega)]; exact h2
        · rw [List.getElem?_append_left hip]; exact h3
      · have hi' : i = p.length := by omega
        subst hi'
        refine ⟨v', g.To v' e, e, ?_, ?_, ?_, he, rfl, hb⟩
        · rw [List.getElem?_append_left (by omega)]; exact hv3
        · rw [List.getElem?_append_right (by omega)]
          simp [hv1]
        · rw [List.getElem?_append_right (le_refl _)]
          simp

theorem dynInv_terminal (hst : StrictTotal V) {prune : Bool} {g : DynamicGraph V E}
    {start endv : V} {ps : List V} {s : DynState V E}
    (h : DynInv prune g start endv ps s)
    (hexit : ∀ r ∈ s.info.head?, Before r.v endv = false) :
    ∀ r ∈ s.info, Before r.v endv = false := by
  intro r hr
  have hsorted := h.sorted
  cases hinfo : s.info with
  | nil => rw [hinfo] at hr; cases hr
  | cons a rest =>
    rw [hinfo] at hr hsorted hexit
    have ha : Before a.v endv = false := hexit a (by simp)
    rcases List.mem_cons.1 hr with heq | hmem
    · rw [heq]; exact ha
    · unfold SortedInfo at hsorted
      rw [List.pairwise_cons] at hsorted
      cases hre : Before r.v endv with
      | false => rfl
      | true =>
        have := hst.trans _ _ _ (hsorted.1 r hmem) hre
        rw [ha] at this
        cases this

theorem dynInv_covers {prune : Bool} {g : DynamicGraph V E} {start endv : V}
    {ps : List V} {s : DynState V E} (h : DynInv prune g start endv ps s)
    {u w : V} {q : List E} (hq : IsDynPath g u q w) (hw : Before w endv = false) :
    ∀ L0 : Int, Dist g (fun x => x ∈ ps) start u L0 →
      ∃ r ∈ s.info, NonNeg g → r.shortest ≤ L0 + dynPathLength g u q := by
  induction hq with
  | nil u =>
    intro L0 hd
    have hu : u ∉ ps := by
      intro hmem
      rw [(h.closed u hmem).1] at hw
      cases hw
    rcases h.complete u L0 hd hu with ⟨r, hr1, _, hr3⟩ | ⟨_, ha, hb⟩
    · exact ⟨r, hr1, fun hnn => by simpa [dynPathLength] using hr3 (fun _ => hnn)⟩
    · obtain ⟨r, hr1, _, hr3⟩ := h.best ha
      exact ⟨r, hr1, fun hnn => by simpa [dynPathLength] using le_trans hr3 (hb hnn)⟩
  | @cons u w e q he hq' ih =>
    intro L0 hd
    by_cases hu : u ∈ ps
    · obtain ⟨r, hr1, hr2⟩ := ih hw (L0 + g.Length u e) (Dist.snoc hd hu he)
      refine ⟨r, hr1, fun hnn => ?_⟩
      have := hr2 hnn
      simp only [dynPathLength]
      linarith
    · have hlen : NonNeg g → 0 ≤ dynPathLength g u (e :: q) := fun hnn =>
        dynPathLength_nonneg hnn (IsDynPath.cons he hq')
      rcases h.complete u L0 hd hu with ⟨r, hr1, _, hr3⟩ | ⟨_, ha, hb⟩
      · exact ⟨r, hr1, fun hnn => by linarith [hr3 (fun _ => hnn), hlen hnn]⟩
      · obtain ⟨r, hr1, _, hr3⟩ := h.best ha
        exact ⟨r, hr1, fun hnn => by linarith [hb hnn, hlen hnn]⟩

/-! ## What ShortestPathDyn returns -/

/-- What `shortestPathDynWith` returns, when it returns, on a strictly totally
ordered vertex type with forward edges. -/
theorem shortestPathDynWith_spec (hst : StrictTotal V) (prune : Bool) {g : DynamicGraph V E}
    (hfw : Forward g) (start endv : V) (fuel : Nat) (res : Result E)
    (h : shortestPathDynWith prune g start endv fuel = some res) :
    (res = ([], some Err.ErrNoPath) ∧
        (Before endv start = true ∨
          ¬ ∃ (q : List E) (w : V), IsDynPath g start q w ∧ Before w endv = false)) ∨
      (∃ p : List E, res = (p, none) ∧ Before endv start = false ∧
        (∃ vs : List V, vs.length = p.length + 1 ∧ vs[0]? = some start ∧
          (∃ z : V, vs[p.length]? = some z ∧ Before z endv = false ∧ IsDynPath g start p z) ∧
          ∀ i : Nat, i < p.length → ∃ (a b : V) (e : E), vs[i]? = some a ∧
            vs[i + 1]? = some b ∧ p[i]? = some e ∧ e ∈ dynEdges g a ∧
            g.To a e = b ∧ Before a endv = true) ∧
        (NonNeg g → ∀ (q : List E) (w : V), IsDynPath g start q w → Before w endv = false →
          dynPathLength g start p ≤ dynPathLength g start q)) := by
  unfold shortestPathDynWith at h
  cases hse : Before endv start with
  | true =>
    simp only [hse, if_true] at h
    cases h
    exact Or.inl ⟨rfl, Or.inl rfl⟩
  | false =>
    simp only [hse, Bool.false_eq_true, if_false] at h
    cases hloop : dynLoop prune g endv fuel
        { info := [{ v := start, shortest := 0, frm := InfoPtr.nil, via := default }],
          arrived := false, bestLength := 0 } with
    | none => rw [hloop] at h; cases h
    | some s =>
      rw [hloop] at h
      simp only at h
      obtain ⟨ps, hinv, hexit⟩ := dynLoop_inv hst hfw fuel [] _ s
        (dynInv_init prune g start endv) hloop
      have hterm := dynInv_terminal hst hinv hexit
      cases hinfo : s.info with
      | nil =>
        rw [hinfo] at h
        simp only at h
        cases h
        refine Or.inl ⟨rfl, Or.inr ?_⟩
        rintro ⟨q, w, hq, hw⟩
        obtain ⟨r, hr, _⟩ := dynInv_covers hinv hq hw 0 Dist.nil
        rw [hinfo] at hr
        cases hr
      | cons r0 rest =>
        obtain ⟨r, hget, hmin⟩ := scanBest_spec (r0 :: rest) rest [r0] r0 0 rfl rfl
          (by intro r' hr'; rw [List.mem_singleton.1 hr'])
        simp only [List.length_singleton] at hget
        rw [hinfo] at h
        simp only [hget, walkDyn_result] at h
        cases h
        have hrmem : r ∈ s.info := by
          rw [hinfo]; exact List.get?_mem hget
        obtain ⟨v, sh, frm, via, heq, hp, hl, vs, hv1, hv2, hv3, hv4⟩ :=
          goodPtr_spec (hinv.good r hrmem)
        have hv : v = r.v ∧ sh = r.shortest := by
          unfold DynInfo.ptr at heq
          cases heq
          exact ⟨rfl, rfl⟩
        obtain ⟨rfl, rfl⟩ := hv
        refine Or.inr ⟨ptrPath r.ptr, rfl, rfl,
          ⟨vs, hv1, hv2, ⟨r.v, hv3, hterm r hrmem, hp⟩, hv4⟩, ?_⟩
        intro hnn q w hq hw
        obtain ⟨r', hr', hle⟩ := dynInv_covers hinv hq hw 0 Dist.nil
        rw [hl]
        have h1 := hle hnn
        have h2 := hmin r' (by rw [← hinfo]; exact hr')
        linarith

/-- With at most `N` vertices, `N` units of fuel are enough for `shortestPathDynWith`
to return. -/
theorem shortestPathDynWith_returns (hst : StrictTotal V) (prune : Bool)
    {g : DynamicGraph V E} (hfw : Forward g) (start endv : V) (N : Nat)
    (hN : ∀ qs : List V, qs.Nodup → qs.length ≤ N) (fuel : Nat) (hfuel : N ≤ fuel) :
    ∃ res : Result E, shortestPathDynWith prune g start endv fuel = some res := by
  unfold shortestPathDynWith
  cases hse : Before endv start with
  | true => exact ⟨([], some Err.ErrNoPath), by simp⟩
  | false =>
    simp only [Bool.false_eq_true, if_false]
    obtain ⟨s, hs⟩ := dynLoop_terminates hst hfw N hN fuel [] _
      (dynInv_init prune g start endv) (by simpa using hfuel)
    rw [hs]
    simp only
    cases hinfo : s.info with
    | nil => exact ⟨_, rfl⟩
    | cons r0 rest =>
      obtain ⟨r, hget, _⟩ := scanBest_spec (r0 :: rest) rest [r0] r0 0 rfl rfl
        (by intro r' hr'; rw [List.mem_singleton.1 hr'])
      simp only [List.length_singleton] at hget
      simp only [hget, walkDyn_result]
      exact ⟨_, rfl⟩

/-! ## Correctness of ShortestPathDyn -/

theorem strictTotal_fin (n : Nat) : StrictTotal (Fin n) where
  irrefl := fun a => by simp [Before]
  trans := fun a b c h1 h2 => by
    simp only [Before, decide_eq_true_eq] at *
    exact lt_trans h1 h2
  total := fun a b => by
    simp only [Before, decide_eq_true_eq]
    exact lt_trichotomy a b

theorem forward_branchGraph : Forward branchGraph := by unfold Forward; decide

theorem nonNeg_branchGraph : NonNeg branchGraph := by unfold NonNeg; decide

theorem forward_negGraph : Forward negGraph := by unfold Forward; decide

theorem strictWeak_tied : StrictWeak TiedVertex := ⟨by decide, by decide, by decide, by decide⟩

theorem forward_tiedGraph : Forward tiedGraph := by unfold Forward; decide

/-- C4. `ShortestPathDyn` is optimal for non-negative lengths: when `Before` is a
strict total order, every enumerated edge leads strictly forward and every length
is `≥ 0`, then for `start`, `end` with `not end.Before(start)` a path `p` returned
without error is no longer than any path `q` from `start` to any vertex `w` with
`not w.Before(end)`. This holds for every amount of fuel with which the function
returns, on finite and infinite graphs alike. -/
theorem shortestPathDyn_optimal (hst : StrictTotal V) (g : DynamicGraph V E)
    (hfw : Forward g) (hnn : NonNeg g) (start endv : V) (_ : Before endv start = false)
    (fuel : Nat) (p : List E) (h : ShortestPathDyn g start endv fuel = some (p, none))
    (q : List E) (w : V) (hq : IsDynPath g start q w) (hw : Before w endv = false) :
    dynPathLength g start p ≤ dynPathLength g start q := by
  rcases shortestPathDynWith_spec hst true hfw start endv fuel _ h with
    ⟨h1, _⟩ | ⟨p', h1, _, _, h4⟩
  · cases h1
  · cases h1
    exact h4 hnn q w hq hw

theorem shortestPathDyn_optimal_witness :
    dynPathLength branchGraph 0 [1, 3] ≤ dynPathLength branchGraph 0 [2, 3, 4] :=
  shortestPathDyn_optimal (strictTotal_fin 5) branchGraph forward_branchGraph
    nonNeg_branchGraph 0 3 (by decide) 5 [1, 3] (by decide) [2, 3, 4] 4
    (IsDynPath.cons (by decide) (IsDynPath.cons (by decide)
      (IsDynPath.cons (by decide) (IsDynPath.nil _)))) (by decide)

/-- C5. `ShortestPathDyn` returns a genuine path: when `Before` is a strict total
order and every enumerated edge leads strictly forward, a returned
`p = [e_0, ..., e_(k-1)]` comes with vertices `v_0 = start, v_1, ..., v_k` such that
`e_i` is enumerated by `AppendEdges` at `v_i`, `To(v_i, e_i) = v_(i+1)`, every `v_i`
with `i < k` is before `end`, and `v_k` is not before `end`. -/
theorem shortestPathDyn_genuine (hst : StrictTotal V) (g : DynamicGraph V E)
    (hfw : Forward g) (start endv : V) (fuel : Nat) (p : List E)
    (h : ShortestPathDyn g start endv fuel = some (p, none)) :
    ∃ vs : List V, vs.length = p.length + 1 ∧ vs[0]? = some start ∧
      (∃ z : V, vs[p.length]? = some z ∧ Before z endv = false) ∧
      ∀ i : Nat, i < p.length → ∃ (a b : V) (e : E), vs[i]? = some a ∧
        vs[i + 1]? = some b ∧ p[i]? = some e ∧ e ∈ dynEdges g a ∧
        g.To a e = b ∧ Before a endv = true := by
  rcases shortestPathDynWith_spec hst true hfw start endv fuel _ h with
    ⟨h1, _⟩ | ⟨p', h1, _, ⟨vs, hv1, hv2, ⟨z, hz1, hz2, _⟩, hv4⟩, _⟩
  · cases h1
  · cases h1
    exact ⟨vs, hv1, hv2, ⟨z, hz1, hz2⟩, hv4⟩

theorem shortestPathDyn_genuine_witness :
    ∃ vs : List (Fin 5), vs.length = [(1 : Fin 5), 3].length + 1 ∧ vs[0]? = some 0 ∧
      (∃ z : Fin 5, vs[[(1 : Fin 5), 3].length]? = some z ∧ Before z (3 : Fin 5) = false) ∧
      ∀ i : Nat, i < [(1 : Fin 5), 3].length → ∃ (a b : Fin 5) (e : Fin 5), vs[i]? = some a ∧
        vs[i + 1]? = some b ∧ [(1 : Fin 5), 3][i]? = some e ∧ e ∈ dynEdges branchGraph a ∧
        branchGraph.To a e = b ∧ Before a (3 : Fin 5) = true :=
  shortestPathDyn_genuine (strictTotal_fin 5) branchGraph forward_branchGraph 0 3 5 [1, 3]
    (by decide)

/-- C6, as stated, fails: `TiedVertex` is finite and strictly weakly ordered, every
edge of `tiedGraph` leads strictly forward and `start = (0,false)` is before
`end = (2,false)`; the vertex `(2,false)`, which is not before `end`, is reachable
from `start` through `(1,true)`, yet `ShortestPathDyn` returns `(nil, ErrNoPath)`:
`(1,true)` compares equal to `(1,false)`, whose record it shares, and only the edges
of `(1,false)` are ever enumerated. -/
theorem shortestPathDyn_weakOrder_counterexample :
    StrictWeak TiedVertex ∧ Forward tiedGraph ∧
      Before (⟨0, false⟩ : TiedVertex) (⟨2, false⟩ : TiedVertex) = true ∧
      IsDynPath tiedGraph ⟨0, false⟩ [⟨1, true⟩, ⟨2, false⟩] ⟨2, false⟩ ∧
      Before (⟨2, false⟩ : TiedVertex) (⟨2, false⟩ : TiedVertex) = false ∧
      ShortestPathDyn tiedGraph ⟨0, false⟩ ⟨2, false⟩ (Fintype.card TiedVertex) =
        some ([], some Err.ErrNoPath) :=
  ⟨strictWeak_tied, forward_tiedGraph, by decide,
    IsDynPath.cons (by decide) (IsDynPath.cons (by decide) (IsDynPath.nil _)),
    by decide, by decide⟩

/-- C6, amended. On a finite vertex type whose `Before` is a strict total order,
with every enumerated edge leading strictly forward and `start.Before(end)`:
given at least as much fuel as there are vertices, `ShortestPathDyn` returns, and
it returns `(nil, ErrNoPath)` if and only if no vertex `w` with `not w.Before(end)`
is reachable from `start`. -/
theorem shortestPathDyn_errNoPath_iff [Fintype V] (hst : StrictTotal V)
    (g : DynamicGraph V E) (hfw : Forward g) (start endv : V)
    (hse : Before start endv = true) (fuel : Nat) (hfuel : Fintype.card V ≤ fuel) :
    (∃ res : Result E, ShortestPathDyn g start endv fuel = some res) ∧
      (ShortestPathDyn g start endv fuel = some ([], some Err.ErrNoPath) ↔
        ¬ ∃ (q : List E) (w : V), IsDynPath g start q w ∧ Before w endv = false) := by
  obtain ⟨res, hres⟩ := shortestPathDynWith_returns hst true hfw start endv
    (Fintype.card V) (fun qs hqs => hqs.length_le_card) fuel hfuel
  refine ⟨⟨res, hres⟩, ?_⟩
  have hres' : ShortestPathDyn g start endv fuel = some res := hres
  rw [hres']
  rcases shortestPathDynWith_spec hst true hfw start endv fuel res hres with
    ⟨h1, h2⟩ | ⟨p, h1, _, ⟨vs, _, _, ⟨z, _, hz2, hz3⟩, _⟩, _⟩
  · rw [h1]
    refine ⟨fun _ => ?_, fun _ => rfl⟩
    rcases h2 with h2 | h2
    · rw [hst.asymm hse] at h2; cases h2
    · exact h2
  · rw [h1]
    refine ⟨fun h => ?_, fun h => absurd ⟨p, z, hz3, hz2⟩ h⟩
    cases h

theorem shortestPathDyn_errNoPath_iff_witness :
    (∃ res : Result (Fin 5), ShortestPathDyn branchGraph 0 3 5 = some res) ∧
      (ShortestPathDyn branchGraph 0 3 5 = some ([], some Err.ErrNoPath) ↔
        ¬ ∃ (q : List (Fin 5)) (w : Fin 5),
          IsDynPath branchGraph 0 q w ∧ Before w (3 : Fin 5) = false) :=
  shortestPathDyn_errNoPath_iff (strictTotal_fin 5) branchGraph forward_branchGraph 0 3
    (by decide) 5 (by simp)

/-- C7, as stated, fails: `negGraph` is finite, strictly totally ordered and has only
forward edges, one of them of negative length. With `start = 0` and `end = 3` the
sweep with pruning returns `[3]`, of total length 0: once the edge `0→3` has
arrived, the record of vertex 1 (length 1) is skipped. The same sweep without the
pruning step expands vertex 1 and returns `[1, 4]`, of total length -4. -/
theorem pruning_negative_counterexample :
    StrictTotal (Fin 5) ∧ Forward negGraph ∧
      ShortestPathDyn negGraph 0 3 5 = some ([3], none) ∧
      ShortestPathDynNoPrune negGraph 0 3 5 = some ([1, 4], none) ∧
      dynPathLength negGraph 0 [3] = 0 ∧ dynPathLength negGraph 0 [1, 4] = -4 :=
  ⟨strictTotal_fin 5, forward_negGraph, by decide, by decide, by decide, by decide⟩

/-- C7, amended. On a finite vertex type whose `Before` is a strict total order,
with every enumerated edge leading strictly forward and every length `≥ 0`:
given at least as much fuel as there are vertices, `ShortestPathDyn` and the same
sweep without the pruning step both return, with the same error, and the paths
they return have the same total length. -/
theorem pruning_preserves_length [Fintype V] (hst : StrictTotal V) (g : DynamicGraph V E)
    (hfw : Forward g) (hnn : NonNeg g) (start endv : V) (fuel : Nat)
    (hfuel : Fintype.card V ≤ fuel) :
    ∃ r1 r2 : Result E, ShortestPathDyn g start endv fuel = some r1 ∧
      ShortestPathDynNoPrune g start endv fuel = some r2 ∧ r1.2 = r2.2 ∧
      dynPathLength g start r1.1 = dynPathLength g start r2.1 := by
  obtain ⟨r1, h1⟩ := shortestPathDynWith_returns hst true hfw start endv
    (Fintype.card V) (fun qs hqs => hqs.length_le_card) fuel hfuel
  obtain ⟨r2, h2⟩ := shortestPathDynWith_returns hst false hfw start endv
    (Fintype.card V) (fun qs hqs => hqs.length_le_card) fuel hfuel
  refine ⟨r1, r2, h1, h2, ?_⟩
  rcases shortestPathDynWith_spec hst true hfw start endv fuel r1 h1 with
    ⟨a1, a2⟩ | ⟨p1, a1, a2, ⟨_, _, _, ⟨z1, _, a3, a4⟩, _⟩, a5⟩
  · rcases shortestPathDynWith_spec hst false hfw start endv fuel r2 h2 with
      ⟨b1, _⟩ | ⟨p2, b1, b2, ⟨_, _, _, ⟨z2, _, b3, b4⟩, _⟩, _⟩
    · rw [a1, b1]
      exact ⟨rfl, rfl⟩
    · exfalso
      rcases a2 with a2 | a2
      · rw [a2] at b2; cases b2
      · exact a2 ⟨p2, z2, b4, b3⟩
  · rcases shortestPathDynWith_spec hst false hfw start endv fuel r2 h2 with
      ⟨b1, b2⟩ | ⟨p2, b1, _, ⟨_, _, _, ⟨z2, _, b3, b4⟩, _⟩, b5⟩
    · exfalso
      rcases b2 with b2 | b2
      · rw [b2] at a2; cases a2
      · exact b2 ⟨p1, z1, a4, a3⟩
    · rw [a1, b1]
      exact ⟨rfl, le_antisymm (a5 hnn p2 z2 b4 b3) (b5 hnn p1 z1 a4 a3)⟩

theorem pruning_preserves_length_witness :
    ∃ r1 r2 : Result (Fin 5), ShortestPathDyn branchGraph 0 3 5 = some r1 ∧
      ShortestPathDynNoPrune branchGraph 0 3 5 = some r2 ∧ r1.2 = r2.2 ∧
      dynPathLength branchGraph 0 r1.1 = dynPathLength branchGraph 0 r2.1 :=
  pruning_preserves_length (strictTotal_fin 5) branchGraph forward_branchGraph
    nonNeg_branchGraph 0 3 5 (by simp)

/-! ## Degenerate targets -/

/-- C13. Negative targets are rejected: for every graph and every `n < 0`,
`ShortestPath(g, n)` and `ShortestPathHist(h, n)` return a nil path together with
`ErrNoPath`; the result is the same whatever the graph is, so the graph is not
consulted. -/
theorem negative_target_rejected {H : Type} [Inhabited H] (g : Graph E)
    (h : GraphWithHistory E H) (n : Int) (hn : n < 0) :
    ShortestPath g n = some ([], some Err.ErrNoPath) ∧
      ShortestPathHist h n = some ([], some Err.ErrNoPath) := by
  have h0 : ¬ n = 0 := by omega
  constructor
  · simp [ShortestPath, h0, hn]
  · simp [ShortestPathHist, h0, hn]

theorem negative_target_rejected_witness :
    ShortestPath linearGraph (-1) = some ([], some Err.ErrNoPath) ∧
      ShortestPathHist orphanGraph (-1) = some ([], some Err.ErrNoPath) :=
  negative_target_rejected linearGraph orphanGraph (-1) (by decide)

/-- C14. Target 0 is trivially reached: for every graph, `ShortestPath(g, 0)` and
`ShortestPathHist(h, 0)` return an empty path with a nil error, whatever edges the
graph has. -/
theorem zero_target_trivial {H : Type} [Inhabited H] (g : Graph E)
    (h : GraphWithHistory E H) :
    ShortestPath g 0 = some ([], none) ∧ ShortestPathHist h 0 = some ([], none) := by
  constructor
  · simp [ShortestPath]
  · simp [ShortestPathHist]

/-- C15. For every graph and all vertices with `end.Before(start)`,
`ShortestPathDyn(g, start, end)` returns a nil path together with `ErrNoPath`, with
any amount of fuel; the result is the same whatever the graph is, so the graph is
not consulted. -/
theorem shortestPathDyn_end_before_start (g : DynamicGraph V E) (start endv : V)
    (hse : Before endv start = true) (fuel : Nat) :
    ShortestPathDyn g start endv fuel = some ([], some Err.ErrNoPath) := by
  simp [ShortestPathDyn, shortestPathDynWith, hse]

theorem shortestPathDyn_end_before_start_witness :
    ShortestPathDyn branchGraph 3 0 0 = some ([], some Err.ErrNoPath) :=
  shortestPathDyn_end_before_start branchGraph 3 0 (by decide) 0

/-- C16. For every graph and all vertices `start`, `end` that compare equal (neither
is before the other), `ShortestPathDyn(g, start, end)` returns an empty path with a
nil error, with any amount of fuel, zero included: the main loop makes no pass, and
the result is the same whatever the graph is, so no edge is enumerated. -/
theorem shortestPathDyn_start_equals_end (g : DynamicGraph V E) (start endv : V)
    (h1 : Before start endv = false) (h2 : Before endv start = false) (fuel : Nat) :
    ShortestPathDyn g start endv fuel = some ([], none) ∧
      dynLoop true g endv fuel
          { info := [{ v := start, shortest := 0, frm := InfoPtr.nil, via := default }],
            arrived := false, bestLength := 0 } =
        some { info := [{ v := start, shortest := 0, frm := InfoPtr.nil, via := default }],
               arrived := false, bestLength := 0 } := by
  have hloop : dynLoop true g endv fuel
      { info := [{ v := start, shortest := 0, frm := InfoPtr.nil, via := default }],
        arrived := false, bestLength := 0 } =
      some { info := [{ v := start, shortest := 0, frm := InfoPtr.nil, via := default }],
             arrived := false, bestLength := 0 } := by
    cases fuel <;> simp [dynLoop, h1]
  refine ⟨?_, hloop⟩
  simp [ShortestPathDyn, shortestPathDynWith, h2, hloop, scanBest, DynInfo.ptr,
    countStepsDyn, fillPathDyn]

theorem shortestPathDyn_start_equals_end_witness :
    ShortestPathDyn branchGraph 2 2 0 = some ([], none) ∧
      dynLoop true branchGraph 2 0
          { info := [{ v := 2, shortest := 0, frm := InfoPtr.nil, via := default }],
            arrived := false, bestLength := 0 } =
        some { info := [{ v := 2, shortest := 0, frm := InfoPtr.nil, via := default }],
               arrived := false, bestLength := 0 } :=
  shortestPathDyn_start_equals_end branchGraph 2 2 (by decide) (by decide) 0

/-! ## The linear chain, and the end of the backpointer walk -/

theorem isPath_length_le {g : Graph E} {n u w : Int} {p : List E} (h : IsPath g n u p w) :
    u + (p.length : Int) ≤ w := by
  induction h with
  | nil u => simp
  | cons _ h1 _ _ ih =>
    simp only [List.length_cons, Nat.cast_add, Nat.cast_one]
    omega

theorem linear_path_edges {n u w : Int} {p : List Int} (h : IsPath linearGraph n u p w) :
    w = u + (p.length : Int) ∧ ∀ (i : Nat) (x : Int), p[i]? = some x → x = u + 1 + (i : Int) := by
  induction h with
  | nil u => simp
  | @cons u w e p he _ _ _ ih =>
    have he' : e = u + 1 := by
      simpa [edgesOf, linearGraph] using he
    have hto : linearGraph.To u e = u + 1 := by rw [he']; rfl
    rw [hto] at ih
    refine ⟨by simp only [List.length_cons, Nat.cast_add, Nat.cast_one]; omega, ?_⟩
    intro i x hx
    cases i with
    | zero =>
      simp only [List.getElem?_cons_zero, Option.some.injEq] at hx
      simp [← hx, he']
    | succ i =>
      simp only [List.getElem?_cons_succ] at hx
      have := ih.2 i x hx
      simp only [Nat.cast_add, Nat.cast_one]
      omega

theorem linear_path_exists (n : Int) :
    ∀ (k : Nat) (u : Int), u + (k : Int) = n → ∃ q : List Int, IsPath linearGraph n u q n := by
  intro k
  induction k with
  | zero =>
    intro u hu
    have : u = n := by simpa using hu
    subst this
    exact ⟨[], IsPath.nil _⟩
  | succ k ih =>
    intro u hu
    obtain ⟨q, hq⟩ := ih (u + 1) (by push_cast at hu ⊢; omega)
    refine ⟨(u + 1) :: q, IsPath.cons ?_ ?_ ?_ hq⟩
    · simp [edgesOf, linearGraph]
    · show u < u + 1
      omega
    · show u + 1 ≤ n
      push_cast at hu
      omega

/-- C17. On the linear-chain graph of dag_test.go (vertex `v` has the single edge
`v+1`, `To(v, e) = e`, every length 1), for every `n ≥ 0` `ShortestPath(g, n)` returns
without error a path of exactly `n` edges whose `i`-th edge (0-indexed) equals
`i+1`. -/
theorem shortestPath_linear (n : Nat) :
    ∃ p : List Int, ShortestPath linearGraph (n : Int) = some (p, none) ∧ p.length = n ∧
      ∀ i : Nat, i < n → p[i]? = some ((i : Int) + 1) := by
  rcases Nat.eq_zero_or_pos n with rfl | hpos
  · exact ⟨[], by simp [ShortestPath], rfl, fun i hi => absurd hi (by omega)⟩
  · have hn : (0 : Int) < (n : Int) := by omega
    rcases shortestPath_cases linearGraph (n : Int) hn with ⟨h1, _⟩ | ⟨_, p, h2, h3, _⟩
    · exfalso
      obtain ⟨q, hq⟩ := linear_path_exists (n : Int) n 0 (by simp)
      have := (shortestPath_reach linearGraph (n : Int) hn).2 ⟨q, hq⟩
      obtain ⟨p, hp⟩ := this
      rcases shortestPath_cases linearGraph (n : Int) hn with ⟨_, h2⟩ | ⟨h2, _⟩
      · rw [h2] at hp; cases hp
      · rw [h2] at h1; cases h1
    · obtain ⟨hlen, hedges⟩ := linear_path_edges h3
      have hlen' : p.length = n := by omega
      refine ⟨p, h2, hlen', ?_⟩
      intro i hi
      have hi' : i < p.length := by omega
      rw [List.getElem?_eq_getElem hi']
      have := hedges i p[i] (List.getElem?_eq_getElem hi')
      rw [this]
      congr 1
      omega

/-- C19. Path reconstruction in `ShortestPath` terminates, for every graph (also one
that violates the forward-edge contract) and every `n > 0`. After the sweep every
reached vertex `w > 0` records a predecessor `from[w]` with `0 ≤ from[w] < w` that is
itself reached. Hence, when `n` is reached, both backpointer walks return on fuel `n`
(one unit per step) without an index leaving the table: the first counts `steps ≤ n`
steps, the second fills a path of exactly `steps` edges, and `ShortestPath` returns
that path. -/
theorem shortestPath_walk_terminates (g : Graph E) (n : Nat) (hn : 0 < n) :
    (∀ w : Nat, 0 < w → w ≤ n → (infoAt (sweep g n) w).reached = true →
      ∃ v : Nat, (infoAt (sweep g n) w).frm = (v : Int) ∧ v < w ∧
        (infoAt (sweep g n) v).reached = true) ∧
      ((infoAt (sweep g n) n).reached = true →
        ∃ (steps : Nat) (p : List E), countSteps (sweep g n) n (n : Int) 0 = some steps ∧
          fillPath (sweep g n) n (n : Int) steps (List.replicate steps default) = some p ∧
          p.length = steps ∧ steps ≤ n ∧ ShortestPath g (n : Int) = some (p, none)) := by
  have hinv := sweepInv_sweep g n
  constructor
  · intro w hw hwn hr
    obtain ⟨v, _, h1, _, h3, h4, _⟩ := hinv.back w hw hwn hr
    exact ⟨v, h1, h3, h4⟩
  · intro hr
    obtain ⟨p, hp1, _, hp3, hp4, _⟩ := walk_spec hinv n (le_refl n) hr
    have hc := hp3 n 0 (le_refl n)
    have hf := hp4 n p.length (List.replicate p.length default) (le_refl n) (le_refl _)
      (by simp)
    simp only [Nat.zero_add] at hc
    simp only [Nat.sub_self, List.take_zero, List.nil_append] at hf
    rw [List.drop_of_length_le (by simp), List.append_nil] at hf
    have hle := isPath_length_le hp1
    have hn0 : ¬ ((n : Int) = 0) := by omega
    have hn1 : ¬ ((n : Int) < 0) := by omega
    refine ⟨p.length, p, hc, hf, rfl, by omega, ?_⟩
    simp only [ShortestPath, hn0, hn1, if_false, Int.toNat_ofNat, hr, hc, hf]
    simp

theorem shortestPath_walk_terminates_witness :
    (∀ w : Nat, 0 < w → w ≤ 2 → (infoAt (sweep doubleEdges 2) w).reached = true →
      ∃ v : Nat, (infoAt (sweep doubleEdges 2) w).frm = (v : Int) ∧ v < w ∧
        (infoAt (sweep doubleEdges 2) v).reached = true) ∧
      ((infoAt (sweep doubleEdges 2) 2).reached = true →
        ∃ (steps : Nat) (p : List Bool),
          countSteps (sweep doubleEdges 2) 2 ((2 : Nat) : Int) 0 = some steps ∧
          fillPath (sweep doubleEdges 2) 2 ((2 : Nat) : Int) steps
            (List.replicate steps default) = some p ∧
          p.length = steps ∧ steps ≤ 2 ∧
          ShortestPath doubleEdges ((2 : Nat) : Int) = some (p, none)) :=
  shortestPath_walk_terminates doubleEdges 2 (by decide)

/-! ## The engines consult the graph below the target only -/

theorem reached_isPath {g : Graph E} {n k j : Nat} {info : List (VertexInfo E)}
    (h : SweepInv g n k j info) :
    ∀ w : Nat, w ≤ n → (infoAt info w).reached = true → ∃ p : List E, IsPath g n 0 p w := by
  intro w
  induction w using Nat.strong_induction_on with
  | _ w ih =>
    intro hwn hr
    rcases Nat.eq_zero_or_pos w with rfl | hpos
    · exact ⟨[], IsPath.nil _⟩
    · obtain ⟨v, i, _, _, h3, h4, h5, h6, _, _⟩ := h.back w hpos hwn hr
      obtain ⟨p, hp⟩ := ih v h3 (by omega) h4
      have := isPath_snoc hp (List.getElem?_mem h5) (by rw [h6]; omega) (by rw [h6]; omega)
      rw [h6] at this
      exact ⟨_, this⟩

theorem relaxEdge_congr (g g' : Graph E) (n v : Nat) (info : List (VertexInfo E)) (e : E)
    (hto : g.To v e = g'.To v e) (hlen : g.Length v e = g'.Length v e) :
    relaxEdge g n v info e = relaxEdge g' n v info e := by
  unfold relaxEdge
  rw [hto, hlen]

theorem foldl_relaxEdge_congr (g g' : Graph E) (n v : Nat) :
    ∀ (edges : List E) (info : List (VertexInfo E)),
      (∀ e ∈ edges, g.To v e = g'.To v e ∧ g.Length v e = g'.Length v e) →
      edges.foldl (relaxEdge g n v) info = edges.foldl (relaxEdge g' n v) info := by
  intro edges
  induction edges with
  | nil => intro info _; rfl
  | cons e rest ih =>
    intro info hag
    simp only [List.foldl_cons]
    rw [relaxEdge_congr g g' n v info e (hag e (List.mem_cons_self _ _)).1
      (hag e (List.mem_cons_self _ _)).2]
    exact ih _ (fun e' he' => hag e' (List.mem_cons_of_mem _ he'))

theorem visit_congr (g g' : Graph E) (n k : Nat) (info : List (VertexInfo E))
    (hinv : SweepInv g n k 0 info) (hk : k < n)
    (hag : ∀ v : Nat, v < n → (∃ q : List E, IsPath g n 0 q v) →
      edgesOf g v = edgesOf g' v ∧
        ∀ e ∈ edgesOf g v, g.To v e = g'.To v e ∧ g.Length v e = g'.Length v e) :
    visit g n info k = visit g' n info k := by
  unfold visit
  cases hr : (infoAt info k).reached with
  | false => rfl
  | true =>
    simp only [Bool.not_true, Bool.false_eq_true, if_false]
    obtain ⟨h1, h2⟩ := hag k hk (reached_isPath hinv k (by omega) hr)
    unfold edgesOf at h1 h2
    rw [← h1]
    exact foldl_relaxEdge_congr g g' n k _ _ h2

theorem sweep_congr (g g' : Graph E) (n : Nat)
    (hag : ∀ v : Nat, v < n → (∃ q : List E, IsPath g n 0 q v) →
      edgesOf g v = edgesOf g' v ∧
        ∀ e ∈ edgesOf g v, g.To v e = g'.To v e ∧ g.Length v e = g'.Length v e) :
    ∀ k : Nat, k ≤ n →
      (List.range k).foldl (visit g n) (initInfo E n) =
        (List.range k).foldl (visit g' n) (initInfo E n) := by
  intro k
  induction k with
  | zero => intro _; rfl
  | succ k ih =>
    intro hk
    rw [List.range_succ, List.foldl_append, List.foldl_append, ← ih (by omega)]
    simp only [List.foldl_cons, List.foldl_nil]
    exact visit_congr g g' n k _ (sweepInv_range g n k) (by omega) hag

theorem relaxDyn_congr (g g' : DynamicGraph V E) (endv : V) (cur : DynInfo V E)
    (s : DynState V E) (e : E) (hto : g.To cur.v e = g'.To cur.v e)
    (hlen : g.Length cur.v e = g'.Length cur.v e) :
    relaxDyn g endv cur s e = relaxDyn g' endv cur s e := by
  unfold relaxDyn
  simp only [hto, hlen]

theorem foldl_relaxDyn_congr (g g' : DynamicGraph V E) (endv : V) (cur : DynInfo V E) :
    ∀ (edges : List E) (s : DynState V E),
      (∀ e ∈ edges, g.To cur.v e = g'.To cur.v e ∧ g.Length cur.v e = g'.Length cur.v e) →
      edges.foldl (relaxDyn g endv cur) s = edges.foldl (relaxDyn g' endv cur) s := by
  intro edges
  induction edges with
  | nil => intro s _; rfl
  | cons e rest ih =>
    intro s hag
    simp only [List.foldl_cons]
    rw [relaxDyn_congr g g' endv cur s e (hag e (List.mem_cons_self _ _)).1
      (hag e (List.mem_cons_self _ _)).2]
    exact ih _ (fun e' he' => hag e' (List.mem_cons_of_mem _ he'))

theorem dynLoop_congr (prune : Bool) (g g' : DynamicGraph V E) (endv : V)
    (hag : ∀ v : V, Before v endv = true → dynEdges g v = dynEdges g' v ∧
      ∀ e ∈ dynEdges g v, g.To v e = g'.To v e ∧ g.Length v e = g'.Length v e) :
    ∀ (fuel : Nat) (s : DynState V E),
      dynLoop prune g endv fuel s = dynLoop prune g' endv fuel s := by
  intro fuel
  induction fuel with
  | zero => intro s; rfl
  | succ fuel ih =>
    intro s
    rw [dynLoop, dynLoop]
    cases hinfo : s.info with
    | nil => rfl
    | cons cur rest =>
      simp only
      cases hcur : Before cur.v endv with
      | false => rfl
      | true =>
        simp only [if_true]
        obtain ⟨h1, h2⟩ := hag cur.v hcur
        unfold dynEdges at h1 h2
        rw [ih, ih, ← h1, foldl_relaxDyn_congr g g' endv cur _ _ h2]

/-- C11. The engines never enumerate edges at or beyond the target. Two graphs that
agree on `AppendEdges`, and on `To` and `Length` of the enumerated edges, at every
vertex `v` with `0 ≤ v < n` that is reachable from 0 give the same result of
`ShortestPath(·, n)`; two dynamic graphs that agree in the same way at every vertex
`v` with `v.Before(end)` give the same result of `ShortestPathDyn(·, start, end)`, for
every amount of fuel. What a graph does at other vertices (the test graphs panic
there) has no influence. -/
theorem engines_ignore_beyond_target {D : Type} [Inhabited D] (g g' : Graph E) (n : Int)
    (dg dg' : DynamicGraph V D) (start endv : V) (fuel : Nat) :
    ((∀ v : Int, 0 ≤ v → v < n → (∃ q : List E, IsPath g n 0 q v) →
        edgesOf g v = edgesOf g' v ∧
          ∀ e ∈ edgesOf g v, g.To v e = g'.To v e ∧ g.Length v e = g'.Length v e) →
      ShortestPath g n = ShortestPath g' n) ∧
      ((∀ v : V, Before v endv = true → dynEdges dg v = dynEdges dg' v ∧
          ∀ e ∈ dynEdges dg v, dg.To v e = dg'.To v e ∧ dg.Length v e = dg'.Length v e) →
        ShortestPathDyn dg start endv fuel = ShortestPathDyn dg' start endv fuel) := by
  constructor
  · intro hag
    have hsweep : sweep g n.toNat = sweep g' n.toNat := by
      refine sweep_congr g g' n.toNat ?_ n.toNat (le_refl _)
      intro v hv hq
      have hvn : (v : Int) < n := by omega
      have hn : ((n.toNat : Nat) : Int) = n := by omega
      rw [hn] at hq
      exact hag v (by omega) hvn hq
    unfold ShortestPath
    rw [hsweep]
  · intro hag
    unfold ShortestPathDyn shortestPathDynWith
    rw [dynLoop_congr true dg dg' endv hag]

theorem engines_ignore_beyond_target_witness :
    ShortestPath doubleEdges 2 = ShortestPath doubleEdgesCut 2 ∧
      ShortestPathDyn branchGraph 0 3 5 = ShortestPathDyn branchGraphCut 0 3 5 :=
  ⟨(engines_ignore_beyond_target doubleEdges doubleEdgesCut 2 branchGraph branchGraphCut
      0 3 5).1 (by
        intro v h0 h2 _
        have hv : v = 0 ∨ v = 1 := by omega
        rcases hv with rfl | rfl <;> decide),
    (engines_ignore_beyond_target doubleEdges doubleEdgesCut 2 branchGraph branchGraphCut
      0 3 5).2 (by decide)⟩

/-! ## The open set stays sorted -/

theorem insertSorted_vertex (w : V) (nl : Int) (cur : DynInfo V E) (e : E) :
    ∀ (info : List (DynInfo V E)) (r' : DynInfo V E), r' ∈ insertSorted w nl cur e info →
      r'.v = w ∨ ∃ r ∈ info, r'.v = r.v := by
  intro info
  induction info with
  | nil =>
    intro r' hr'
    simp only [insertSorted, List.mem_singleton] at hr'
    left
    rw [hr']
    rfl
  | cons a rest ih =>
    intro r' hr'
    unfold insertSorted at hr'
    split at hr'
    · rcases List.mem_cons.1 hr' with h | h
      · exact Or.inr ⟨a, List.mem_cons_self _ _, by rw [h]⟩
      · rcases ih r' h with h' | ⟨r, hr, h'⟩
        · exact Or.inl h'
        · exact Or.inr ⟨r, List.mem_cons_of_mem _ hr, h'⟩
    · split at hr'
      · rcases List.mem_cons.1 hr' with h | h
        · left
          rw [h]
          rfl
        · exact Or.inr ⟨r', h, rfl⟩
      · split at hr'
        · rcases List.mem_cons.1 hr' with h | h
          · exact Or.inr ⟨a, List.mem_cons_self _ _, by rw [h]⟩
          · exact Or.inr ⟨r', List.mem_cons_of_mem _ h, rfl⟩
        · exact Or.inr ⟨r', hr', rfl⟩

theorem insertSorted_sorted_of_trans
    (htrans : ∀ a b c : V, Before a b = true → Before b c = true → Before a c = true)
    (w : V) (nl : Int) (cur : DynInfo V E) (e : E) :
    ∀ info : List (DynInfo V E), SortedInfo info →
      SortedInfo (insertSorted w nl cur e info) := by
  intro info
  induction info with
  | nil =>
    intro _
    simp [insertSorted, SortedInfo]
  | cons a rest ih =>
    intro hs
    unfold SortedInfo at hs
    rw [List.pairwise_cons] at hs
    unfold insertSorted
    split
    · rename_i h1
      unfold SortedInfo
      rw [List.pairwise_cons]
      refine ⟨?_, ih hs.2⟩
      intro r hr
      rcases insertSorted_vertex w nl cur e rest r hr with h | ⟨r0, hr0, h⟩
      · rw [h]; exact h1
      · rw [h]; exact hs.1 r0 hr0
    · split
      · rename_i h2
        unfold SortedInfo
        rw [List.pairwise_cons, List.pairwise_cons]
        refine ⟨?_, hs⟩
        intro r hr
        rcases List.mem_cons.1 hr with h | h
        · rw [h]; exact h2
        · exact htrans _ _ _ h2 (hs.1 r h)
      · split
        · unfold SortedInfo
          rw [List.pairwise_cons]
          exact hs
        · unfold SortedInfo
          rw [List.pairwise_cons]
          exact hs

theorem relaxDyn_sorted
    (htrans : ∀ a b c : V, Before a b = true → Before b c = true → Before a c = true)
    (g : DynamicGraph V E) (endv : V) (cur : DynInfo V E) (s : DynState V E) (e : E)
    (hs : SortedInfo s.info) : SortedInfo (relaxDyn g endv cur s e).info := by
  cases hskip : Before (g.To cur.v e) cur.v with
  | true =>
    have : relaxDyn g endv cur s e = s := by
      unfold relaxDyn
      simp [hskip]
    rw [this]
    exact hs
  | false =>
    rw [relaxDyn_eq htrans g endv cur s e hs hskip]
    exact insertSorted_sorted_of_trans htrans _ _ _ _ _ hs

theorem foldl_relaxDyn_sorted
    (htrans : ∀ a b c : V, Before a b = true → Before b c = true → Before a c = true)
    (g : DynamicGraph V E) (endv : V) (cur : DynInfo V E) :
    ∀ (edges : List E) (s : DynState V E), SortedInfo s.info →
      SortedInfo (edges.foldl (relaxDyn g endv cur) s).info := by
  intro edges
  induction edges with
  | nil => intro s hs; exact hs
  | cons e rest ih =>
    intro s hs
    exact ih _ (relaxDyn_sorted htrans g endv cur s e hs)

theorem dynPass_sorted
    (htrans : ∀ a b c : V, Before a b = true → Before b c = true → Before a c = true)
    (prune : Bool) (g : DynamicGraph V E) (endv : V) (s : DynState V E) (cur : DynInfo V E)
    (rest : List (DynInfo V E)) (hinfo : s.info = cur :: rest) (hs : SortedInfo s.info) :
    SortedInfo (dynPass prune g endv s cur rest).info := by
  have hrest : SortedInfo rest := by
    rw [hinfo] at hs
    unfold SortedInfo at hs ⊢
    exact (List.pairwise_cons.1 hs).2
  unfold dynPass
  split
  · exact hrest
  · exact foldl_relaxDyn_sorted htrans g endv cur _ _ hrest

theorem dynTrace_sorted
    (htrans : ∀ a b c : V, Before a b = true → Before b c = true → Before a c = true)
    (prune : Bool) (g : DynamicGraph V E) (endv : V) :
    ∀ (fuel : Nat) (s : DynState V E), SortedInfo s.info →
      ∀ t ∈ dynTrace prune g endv fuel s, SortedInfo t.info := by
  intro fuel
  induction fuel with
  | zero =>
    intro s hs t ht
    simp only [dynTrace, List.mem_singleton] at ht
    rw [ht]; exact hs
  | succ fuel ih =>
    intro s hs t ht
    rw [dynTrace] at ht
    cases hinfo : s.info with
    | nil =>
      simp only [hinfo, List.mem_singleton] at ht
      rw [ht]; exact hs
    | cons cur rest =>
      simp only [hinfo] at ht
      cases hcur : Before cur.v endv with
      | false =>
        simp only [hcur, Bool.false_eq_true, if_false, List.mem_singleton] at ht
        rw [ht]; exact hs
      | true =>
        simp only [hcur, if_true] at ht
        rcases List.mem_cons.1 ht with h | h
        · rw [h]; exact hs
        · exact ih _ (dynPass_sorted htrans prune g endv s cur rest hinfo hs) t h

theorem dynLoop_mem_trace (prune : Bool) (g : DynamicGraph V E) (endv : V) :
    ∀ (fuel : Nat) (s s' : DynState V E), dynLoop prune g endv fuel s = some s' →
      s' ∈ dynTrace prune g endv fuel s := by
  intro fuel
  induction fuel with
  | zero =>
    intro s s' h
    rw [dynLoop] at h
    cases hinfo : s.info with
    | nil =>
      simp only [hinfo] at h
      cases h
      simp [dynTrace]
    | cons cur rest =>
      simp only [hinfo] at h
      cases hcur : Before cur.v endv with
      | true => simp [hcur] at h
      | false =>
        simp only [hcur, Bool.false_eq_true, if_false] at h
        cases h
        simp [dynTrace]
  | succ fuel ih =>
    intro s s' h
    rw [dynLoop] at h
    rw [dynTrace]
    cases hinfo : s.info with
    | nil =>
      simp only [hinfo] at h
      cases h
      simp
    | cons cur rest =>
      simp only [hinfo] at h ⊢
      cases hcur : Before cur.v endv with
      | false =>
        simp only [hcur, Bool.false_eq_true, if_false] at h ⊢
        cases h
        simp
      | true =>
        simp only [hcur, if_true] at h ⊢
        refine List.mem_cons_of_mem _ (ih _ s' ?_)
        unfold dynPass
        split
        · rename_i hp
          simpa only [hp, if_true] using h
        · rename_i hp
          simpa only [hp, if_false] using h

theorem sorted_getElem {info : List (DynInfo V E)} (hs : SortedInfo info) {i j : Nat}
    {ri rj : DynInfo V E} (hij : i < j) (hi : info[i]? = some ri) (hj : info[j]? = some rj) :
    Before ri.v rj.v = true := by
  have hjl : j < info.length := by
    by_contra hcon
    rw [List.getElem?_eq_none (by omega)] at hj
    cases hj
  have hil : i < info.length := by omega
  rw [List.getElem?_eq_getElem hil] at hi
  rw [List.getElem?_eq_getElem hjl] at hj
  cases hi
  cases hj
  exact (List.pairwise_iff_getElem.1 hs) i j hil hjl hij

/-- C18. The open set of `ShortestPathDyn` stays sorted: when `Before` is a strict
weak order, for every graph, in every state `t` of the main loop at the start of a
pass and at loop exit, the open set is strictly increasing with respect to `Before`;
so no two of its records have vertices that compare equal, and its first record
has the order-smallest vertex. The state in which the loop returns is one of these
states. -/
theorem openSet_sorted (hsw : StrictWeak V) (g : DynamicGraph V E) (start endv : V)
    (fuel : Nat) :
    (∀ t ∈ dynTrace true g endv fuel (dynInit start),
      SortedInfo t.info ∧
        (∀ (i j : Nat) (ri rj : DynInfo V E), i ≠ j → t.info[i]? = some ri →
          t.info[j]? = some rj →
          ¬ (Before ri.v rj.v = false ∧ Before rj.v ri.v = false)) ∧
        ∀ (r0 : DynInfo V E) (rest : List (DynInfo V E)), t.info = r0 :: rest →
          ∀ r ∈ rest, Before r0.v r.v = true) ∧
      ∀ s' : DynState V E, dynLoop true g endv fuel (dynInit start) = some s' →
        s' ∈ dynTrace true g endv fuel (dynInit start) := by
  refine ⟨fun t ht => ?_, fun s' h => dynLoop_mem_trace true g endv fuel _ s' h⟩
  have hs : SortedInfo t.info :=
    dynTrace_sorted hsw.trans true g endv fuel (dynInit start)
      (by simp [dynInit, SortedInfo]) t ht
  refine ⟨hs, ?_, ?_⟩
  · intro i j ri rj hij hi hj hcon
    rcases Nat.lt_or_gt_of_ne hij with h | h
    · have := sorted_getElem hs h hi hj
      rw [hcon.1] at this
      cases this
    · have := sorted_getElem hs h hj hi
      rw [hcon.2] at this
      cases this
  · intro r0 rest hinfo r hr
    rw [hinfo] at hs
    unfold SortedInfo at hs
    exact (List.pairwise_cons.1 hs).1 r hr

theorem openSet_sorted_witness :
    (∀ t ∈ dynTrace true tiedGraph ⟨2, false⟩ 6 (dynInit ⟨0, false⟩),
      SortedInfo t.info ∧
        (∀ (i j : Nat) (ri rj : DynInfo TiedVertex TiedVertex), i ≠ j →
          t.info[i]? = some ri → t.info[j]? = some rj →
          ¬ (Before ri.v rj.v = false ∧ Before rj.v ri.v = false)) ∧
        ∀ (r0 : DynInfo TiedVertex TiedVertex) (rest : List (DynInfo TiedVertex TiedVertex)),
          t.info = r0 :: rest → ∀ r ∈ rest, Before r0.v r.v = true) ∧
      ∀ s' : DynState TiedVertex TiedVertex,
        dynLoop true tiedGraph ⟨2, false⟩ 6 (dynInit ⟨0, false⟩) = some s' →
        s' ∈ dynTrace true tiedGraph ⟨2, false⟩ 6 (dynInit ⟨0, false⟩) :=
  openSet_sorted strictWeak_tied tiedGraph ⟨0, false⟩ ⟨2, false⟩ 6

/-! ## An edge from a vertex to itself in ShortestPathDyn -/

theorem selfLoop_diverges : ∀ (fuel : Nat) (s : DynState (Fin 2) (Fin 2)),
    (∃ r : DynInfo (Fin 2) (Fin 2), s.info = [r] ∧ r.v = 0) → s.arrived = false →
    dynLoop true selfLoopGraph 1 fuel s = none := by
  intro fuel
  induction fuel with
  | zero =>
    rintro s ⟨r, hinfo, hv⟩ _
    rw [dynLoop]
    simp only [hinfo, hv]
    rfl
  | succ fuel ih =>
    rintro s ⟨r, hinfo, hv⟩ ha
    rw [dynLoop]
    have hb : Before r.v (1 : Fin 2) = true := by rw [hv]; rfl
    have hedges : selfLoopGraph.AppendEdges [] r.v = [0] := by rw [hv]; rfl
    simp only [hinfo, hb, if_true, ha, Bool.and_false, Bool.false_and, Bool.false_eq_true,
      if_false, hedges, List.foldl_cons, List.foldl_nil]
    apply ih
    · refine ⟨freshInfo 0 (r.shortest + 1) r 0, ?_, rfl⟩
      simp [relaxDyn, hv, selfLoopGraph, Before, sortSearch, searchLoop, placeDyn, freshInfo]
    · simp [relaxDyn, hv, selfLoopGraph, Before, ha]

/-- C12 fails on the code: in `selfLoopGraph` the only edge leads from vertex 0 to
vertex 0, so its endpoint is not strictly after its source. `ShortestPath` discards
such an edge (`w <= v`) and returns `ErrNoPath` for the target 1. `ShortestPathDyn`
tests `w.Before(v)` only: it relaxes the edge, which puts a record for vertex 0 into
the empty open set, pops that record in the next pass, and so on; with `start = 0`
and `end = 1` it returns with no amount of fuel. -/
theorem shortestPathDyn_selfLoop :
    Before (0 : Fin 2) (selfLoopGraph.To 0 0) = false ∧
      (relaxDyn selfLoopGraph 1
          { v := 0, shortest := 0, frm := InfoPtr.nil, via := default }
          { info := [], arrived := false, bestLength := 0 } 0).info.length = 1 ∧
      (∀ fuel : Nat, ShortestPathDyn selfLoopGraph 0 1 fuel = none) ∧
      ShortestPath selfLoopPlain 1 = some ([], some Err.ErrNoPath) := by
  refine ⟨by decide, by decide, ?_, by decide⟩
  intro fuel
  unfold ShortestPathDyn shortestPathDynWith
  have h := selfLoop_diverges fuel
    { info := [{ v := 0, shortest := 0, frm := InfoPtr.nil, via := default }],
      arrived := false, bestLength := 0 } ⟨_, rfl, rfl⟩ rfl
  rw [h]
  rfl

/-! ## ShortestPathHist follows ShortestPath when every source is reached -/

variable {H : Type} [Inhabited H]

theorem infoAt_set (info : List (VertexInfo E)) (i j : Nat) (x : VertexInfo E) :
    infoAt (info.set i x) j = if i = j ∧ i < info.length then x else infoAt info j := by
  by_cases hij : i = j
  · subst hij
    by_cases hi : i < info.length
    · simp [infoAt, List.getD_eq_getElem?_getD, hi]
    · simp [infoAt, List.getD_eq_getElem?_getD, hi, List.set_eq_of_length_le (not_lt.1 hi)]
  · simp [infoAt, List.getD_eq_getElem?_getD, List.getElem?_set_ne hij, hij]

theorem histAt_set (info : List (HistInfo E H)) (i j : Nat) (x : HistInfo E H) :
    histAt (info.set i x) j = if i = j ∧ i < info.length then x else histAt info j := by
  by_cases hij : i = j
  · subst hij
    by_cases hi : i < info.length
    · simp [histAt, List.getD_eq_getElem?_getD, hi]
    · simp [histAt, List.getD_eq_getElem?_getD, hi, List.set_eq_of_length_le (not_lt.1 hi)]
  · simp [histAt, List.getD_eq_getElem?_getD, List.getElem?_set_ne hij, hij]

theorem histSim_init (n : Nat) :
    HistSim (List.replicate (n + 1) (default : HistInfo E H)) (initInfo E n) := by
  refine ⟨by simp [initInfo], fun i => ?_⟩
  unfold initInfo
  rw [infoAt_set]
  by_cases hi : 0 = i
  · subst hi
    simp [histAt, infoAt]
    refine ⟨rfl, rfl, rfl⟩
  · have hpos : ¬ (0 = i ∧ 0 < (List.replicate (n + 1) (default : VertexInfo E)).length) :=
      fun h => hi h.1
    rw [if_neg hpos]
    simp only [histAt, infoAt, List.getD_eq_getElem?_getD, List.getElem?_replicate]
    split <;> exact ⟨rfl, rfl, rfl, fun _ => rfl⟩

theorem histSim_relax (g : GraphWithHistory E H)
    (hlen : ∀ (v : Int) (h1 h2 : H) (e : E), g.Length v h1 e = g.Length v h2 e)
    (n v : Nat) (hinfo : List (HistInfo E H)) (info : List (VertexInfo E)) (e : E)
    (hsim : HistSim hinfo info) :
    HistSim (relaxEdgeHist g n v hinfo e) (relaxEdge (g.plain default) n v info e) := by
  unfold relaxEdgeHist relaxEdge
  have hto : (g.plain default).To v e = g.To v e := rfl
  have hl : (g.plain default).Length v e = g.Length v (histAt hinfo v).hist e :=
    hlen v default _ e
  simp only [hto, hl]
  split
  · exact hsim
  · rename_i hgo
    have hwpos : 0 < (g.To v e).toNat := by omega
    obtain ⟨hs1, hs2, hs3, hs4⟩ := hsim.2 (g.To v e).toNat
    rw [hs4 hwpos, hs1, (hsim.2 v).1]
    split
    · refine ⟨by simp [hsim.1], fun i => ?_⟩
      rw [histAt_set, infoAt_set, hsim.1]
      split
      · exact ⟨rfl, rfl, rfl, fun _ => rfl⟩
      · exact hsim.2 i
    · exact hsim

theorem histSim_foldl (g : GraphWithHistory E H)
    (hlen : ∀ (v : Int) (h1 h2 : H) (e : E), g.Length v h1 e = g.Length v h2 e)
    (n v : Nat) :
    ∀ (edges : List E) (hinfo : List (HistInfo E H)) (info : List (VertexInfo E)),
      HistSim hinfo info →
      HistSim (edges.foldl (relaxEdgeHist g n v) hinfo)
        (edges.foldl (relaxEdge (g.plain default) n v) info) := by
  intro edges
  induction edges with
  | nil => intro hinfo info h; exact h
  | cons e rest ih =>
    intro hinfo info h
    exact ih _ _ (histSim_relax g hlen n v hinfo info e h)

theorem sweep_reached_stage {g : Graph E} {n k : Nat} {info : List (VertexInfo E)}
    (h : SweepInv g n k 0 info) {u w : Int} {p : List E} (hp : IsPath g n u p w) :
    ∀ u' : Nat, u = (u' : Int) → w ≤ (k : Int) → (infoAt info u').reached = true →
      (infoAt info w.toNat).reached = true := by
  induction hp with
  | nil u =>
    intro u' hu _ hr
    subst hu
    simpa using hr
  | @cons u w e p he h1 h2 hp' ih =>
    intro u' hu hwk hr
    subst hu
    obtain ⟨i, hi⟩ := List.mem_iff_getElem?.1 he
    have hle := isPath_length_le hp'
    have hrel := h.relaxed u' i e (Or.inl (by omega)) hr hi h1 h2
    exact ih (g.To u' e).toNat (by omega) hwk hrel.1

theorem visit_reached (g : Graph E) (n k : Nat) (info : List (VertexInfo E))
    (hr : (infoAt info k).reached = true) :
    visit g n info k = (g.AppendEdges [] k).foldl (relaxEdge g n k) info := by
  unfold visit
  simp [hr]

theorem histSim_sweep (g : GraphWithHistory E H)
    (hlen : ∀ (v : Int) (h1 h2 : H) (e : E), g.Length v h1 e = g.Length v h2 e) (n : Nat)
    (hreach : ∀ v : Nat, v < n → ∃ q : List E, IsPath (g.plain default) n 0 q v) :
    ∀ k : Nat, k ≤ n →
      HistSim ((List.range k).foldl (visitHist g n) (List.replicate (n + 1) default))
        ((List.range k).foldl (visit (g.plain default) n) (initInfo E n)) := by
  intro k
  induction k with
  | zero => intro _; exact histSim_init n
  | succ k ih =>
    intro hk
    rw [List.range_succ, List.foldl_append, List.foldl_append]
    simp only [List.foldl_cons, List.foldl_nil]
    have hinv := sweepInv_range (g.plain default) n k
    obtain ⟨q, hq⟩ := hreach k (by omega)
    have hr := sweep_reached_stage hinv hq 0 rfl (by simp) (by rw [hinv.zero])
    simp only [Int.toNat_ofNat] at hr
    rw [visit_reached _ _ _ _ hr]
    exact histSim_foldl g hlen n k _ _ _ (ih (by omega))

theorem lookup_sim {hinfo : List (HistInfo E H)} {info : List (VertexInfo E)}
    (hsim : HistSim hinfo info) (v : Int) :
    (lookupHist hinfo v = none ∧ lookup info v = none) ∨
      ∃ (rh : HistInfo E H) (r : VertexInfo E), lookupHist hinfo v = some rh ∧
        lookup info v = some r ∧ rh.frm = r.frm ∧ rh.via = r.via := by
  unfold lookupHist lookup
  by_cases hv : 0 ≤ v
  · simp only [hv, if_true]
    by_cases hi : v.toNat < info.length
    · right
      have hi' : v.toNat < hinfo.length := by rw [hsim.1]; exact hi
      refine ⟨histAt hinfo v.toNat, infoAt info v.toNat, ?_, ?_, (hsim.2 _).2.1, (hsim.2 _).2.2.1⟩
      · simp [histAt, List.getD_eq_getElem?_getD, hi']
      · simp [infoAt, List.getD_eq_getElem?_getD, hi]
    · left
      have hi' : ¬ v.toNat < hinfo.length := by rw [hsim.1]; exact hi
      exact ⟨List.get?_eq_none.2 (not_lt.1 hi'), List.get?_eq_none.2 (not_lt.1 hi)⟩
  · left
    simp [hv]

theorem countSteps_sim {hinfo : List (HistInfo E H)} {info : List (VertexInfo E)}
    (hsim : HistSim hinfo info) :
    ∀ (fuel : Nat) (v : Int) (s : Nat),
      countStepsHist hinfo fuel v s = countSteps info fuel v s := by
  intro fuel
  induction fuel with
  | zero => intro v s; rfl
  | succ fuel ih =>
    intro v s
    rw [countStepsHist, countSteps]
    split
    · rfl
    · rcases lookup_sim hsim v with ⟨h1, h2⟩ | ⟨rh, r, h1, h2, h3, _⟩
      · rw [h1, h2]
      · rw [h1, h2]
        simp only
        rw [h3]
        exact ih _ _

theorem fillPath_sim {hinfo : List (HistInfo E H)} {info : List (VertexInfo E)}
    (hsim : HistSim hinfo info) :
    ∀ (fuel : Nat) (v : Int) (s : Nat) (path : List E),
      fillPathHist hinfo fuel v s path = fillPath info fuel v s path := by
  intro fuel
  induction fuel with
  | zero => intro v s path; rfl
  | succ fuel ih =>
    intro v s path
    rw [fillPathHist, fillPath]
    split
    · rfl
    · rcases lookup_sim hsim v with ⟨h1, h2⟩ | ⟨rh, r, h1, h2, h3, h4⟩
      · rw [h1, h2]
      · rw [h1, h2]
        simp only
        rw [h3, h4]
        split
        · rfl
        · exact ih _ _ _

theorem hist_eq_plain (g : GraphWithHistory E H)
    (hlen : ∀ (v : Int) (h1 h2 : H) (e : E), g.Length v h1 e = g.Length v h2 e)
    (n : Int) (hn : 0 < n)
    (hreach : ∀ v : Int, 0 ≤ v → v < n → ∃ q : List E, IsPath (g.plain default) n 0 q v) :
    ShortestPathHist g n = ShortestPath (g.plain default) n := by
  obtain ⟨m, rfl⟩ : ∃ m : Nat, n = (m : Int) := ⟨n.toNat, by omega⟩
  have hsim : HistSim (sweepHist g m) (sweep (g.plain default) m) :=
    histSim_sweep g hlen m (fun v hv => hreach v (by omega) (by omega)) m (le_refl m)
  have hn0 : ¬ ((m : Int) = 0) := by omega
  have hn1 : ¬ ((m : Int) < 0) := by omega
  have hm : 0 < m := by omega
  unfold ShortestPathHist ShortestPath
  simp only [hn0, hn1, if_false, Int.toNat_ofNat, (hsim.2 m).2.2.2 hm, countSteps_sim hsim,
    fillPath_sim hsim]

/-- C20. `ShortestPathHist` agrees with `ShortestPath` when no unreached vertex can
act as a source: for a history graph `h` whose `Length` ignores its history
argument, `g` the plain graph with the same `AppendEdges`, `To` and `Length`, and
`n > 0` such that every vertex `v` in `0..n-1` is reachable from vertex 0 (by a path
of `g` within `0..n`), `ShortestPathHist(h, n)` and `ShortestPath(g, n)` return the
same path and the same error. Without the reachability hypothesis the two can
differ: on `orphanGraph`, whose `Length` ignores the history and whose vertex 1 is
not reachable, the first returns `[0, 2]` and the second `ErrNoPath`. -/
theorem hist_agrees_with_plain (g : GraphWithHistory E H)
    (hlen : ∀ (v : Int) (h1 h2 : H) (e : E), g.Length v h1 e = g.Length v h2 e)
    (n : Int) (hn : 0 < n)
    (hreach : ∀ v : Int, 0 ≤ v → v < n → ∃ q : List E, IsPath (g.plain default) n 0 q v) :
    ShortestPathHist g n = ShortestPath (g.plain default) n ∧
      (ShortestPathHist orphanGraph 2 ≠ ShortestPath (orphanGraph.plain default) 2 ∧
        (∀ (v : Int) (h1 h2 : Unit) (e : Int),
          orphanGraph.Length v h1 e = orphanGraph.Length v h2 e) ∧
        ¬ ∃ q : List Int, IsPath (orphanGraph.plain default) 2 0 q 1) := by
  refine ⟨hist_eq_plain g hlen n hn hreach, by decide, fun _ _ _ _ => rfl, ?_⟩
  rintro ⟨q, hq⟩
  cases hq with
  | cons he _ _ _ =>
    have hnil : edgesOf (orphanGraph.plain default) 0 = [] := by decide
    rw [hnil] at he
    cases he

theorem hist_agrees_with_plain_witness :
    ShortestPathHist histChain 3 = ShortestPath (histChain.plain default) 3 ∧
      (ShortestPathHist orphanGraph 2 ≠ ShortestPath (orphanGraph.plain default) 2 ∧
        (∀ (v : Int) (h1 h2 : Unit) (e : Int),
          orphanGraph.Length v h1 e = orphanGraph.Length v h2 e) ∧
        ¬ ∃ q : List Int, IsPath (orphanGraph.plain default) 2 0 q 1) :=
  hist_agrees_with_plain histChain (fun _ _ _ _ => rfl) 3 (by decide) (by
    intro v h0 h3
    have hv : v = 0 ∨ v = 1 ∨ v = 2 := by omega
    rcases hv with rfl | rfl | rfl
    · exact ⟨[], IsPath.nil _⟩
    · exact ⟨[1], IsPath.cons (by decide) (by decide) (by decide) (IsPath.nil _)⟩
    · exact ⟨[2], IsPath.cons (by decide) (by decide) (by decide) (IsPath.nil _)⟩)

end Dag
